import Mathlib

/-!
# Stepper-motor controller: command queue, line parser and step scheduler

A shallow embedding of `src/main.cpp` (an Arduino sketch for an AVR board).

Machine integers are modelled as `Nat` / `Int` with explicit reduction:
* `uint8_t` values live in `0 .. 255` (arithmetic modulo `2^8`),
* `unsigned long` values live in `0 .. 2^32 - 1` (arithmetic modulo `2^32`),
* `long` is a 32-bit two's-complement integer (`wrapLong`),
* `int` is a 16-bit two's-complement integer (`wrapInt`), as on the AVR target.

The line buffer `command[64]` holding a line of `commandLength` characters is
modelled as the list of those characters; a read at an index past the end of the
list yields the terminating NUL that the source stores at `command[commandLength]`
(the parser never reads beyond that index).

One pass of `loop()` is `loop`: the status-or-intake phase `intakePhase`, the gated drain of
the ring buffer `drainPhase` (whose body is `drainByte` and whose parser is `processLine`), and
the scheduler `schedulerTick`. What the environment supplies to a pass (bytes on the two
serial channels, the readings of `micros()`) is an explicit input.
-/

namespace Stucco

/-! ## Machine arithmetic -/

/-- Two's-complement reduction to a 32-bit `long`. -/
def wrapLong (x : Int) : Int := (x + 2147483648) % 4294967296 - 2147483648

/-- Two's-complement reduction to a 16-bit `int`. -/
def wrapInt (x : Int) : Int := (x + 32768) % 65536 - 32768

/-- Reduction to an `unsigned long` (32 bits). -/
def wrapULong (x : Nat) : Nat := x % 4294967296

/-- Reduction to a `uint8_t`. -/
def wrapU8 (x : Nat) : Nat := x % 256

/-- The constant `stepsPerRevolution`. -/
def stepsPerRevolution : Int := 4077

/-- The table `lookup[8]` of coil patterns. -/
def lookup : List Nat := [8, 12, 4, 6, 2, 3, 1, 9]

/-! ## Data model -/

/-- The struct `Command`: one slot of the motion queue. -/
structure Command where
  numSteps : Int
  duration : Int
  microstep : Nat
  quick : Bool
  nextStepTime : Nat
  state : Nat
deriving DecidableEq, Repr

/-- Lifecycle constant `Command::done`. -/
def Command.done : Nat := 0

/-- Lifecycle constant `Command::pending`. -/
def Command.pending : Nat := 1

/-- Lifecycle constant `Command::active`. -/
def Command.active : Nat := 2

/-- A slot as left by `memset(commands, 0, sizeof(commands))`. -/
def Command.zero : Command :=
  { numSteps := 0, duration := 0, microstep := 0, quick := false, nextStepTime := 0, state := 0 }

/-- The constant `maxCommands = sizeof(commands)/sizeof(*commands)`. -/
def maxCommands : Nat := 24

/-- Freeze constant `freezeNone`. -/
def freezeNone : Nat := 0

/-- Freeze constant `freezeExec`. -/
def freezeExec : Nat := 1

/-- Freeze constant `freezeComm`. -/
def freezeComm : Nat := 2

/-- What the program writes to its serial channels and to the motor pins. -/
inductive Output where
  /-- The diagnostic echo `#<produceCommand> <line>` on `Serial`. -/
  | echo (slot : Nat) (line : List Char)
  /-- The reply to `f` without argument: the current mode and the list of valid values. -/
  | freezeReport (mode : Nat)
  /-- The reply `Unfreeze` / `Freezing execution` / `Freezing communication`. -/
  | freezeSet (mode : Nat)
  /-- The reply `Freeze what? (<arg>)`. -/
  | freezeUnknown (arg : List Char)
  /-- The reply `Too many commands, try clear`. -/
  | tooManyCommands
  /-- The acknowledgment `#<index> Going to turn ... steps with ... microseconds between steps`. -/
  | accepted (index : Nat) (numSteps : Int) (microstep : Nat)
  /-- The notice `#<index> Finished`. -/
  | finished (index : Nat)
  /-- The notice `#<index> Starting rotating <n> steps`. -/
  | starting (index : Nat) (numSteps : Int)
  /-- A call `moveStep(eighth)`: the pins receive `lookup[eighth & 7]`. -/
  | drive (phase : Nat)
  /-- The status line `Currently executing` / `Currently idle` of `header1()`. -/
  | reportHeader1 (executing : Bool)
  /-- The status line `There are <n> commands pending` of `header2()`. -/
  | reportHeader2 (pending : Nat)
  /-- The status line of `command(index)` for a slot that is not `Done`: steps left, their
  equivalent in degrees, then `time left: <amount>ms` when `active` and
  `duration: <amount>s` otherwise, and the mark `(quick)`. -/
  | reportSlot (index : Nat) (numSteps : Int) (degrees : Int) (active : Bool) (amount : Int)
      (quick : Bool)
deriving DecidableEq, Repr

/-- The global state read and written by the parser and by the scheduler. -/
structure Controller where
  commands : List Command
  produceCommand : Nat
  consumeCommand : Nat
  numCommandsPending : Nat
  executing : Bool
  freezeMode : Nat
  eighth : Nat
  /-- The field `i` of `statusReporter`. -/
  reporterIndex : Int
deriving DecidableEq, Repr

/-- The state after `setup()`: the queue cleared by `clearCommands()`. -/
def Controller.init : Controller :=
  { commands := List.replicate maxCommands Command.zero
    produceCommand := 0
    consumeCommand := 0
    numCommandsPending := 0
    executing := false
    freezeMode := 0
    eighth := 0
    reporterIndex := -1 }

/-- The slot `commands[i]`. -/
def Controller.slot (s : Controller) (i : Nat) : Command := s.commands.getD i Command.zero

/-- The function `stepCommand`: advance a cursor modulo `maxCommands`. -/
def stepCommand (c : Nat) : Nat := (c + 1) % maxCommands

/-- The function `clearCommands`. -/
def clearCommands (s : Controller) : Controller :=
  { s with
    commands := List.replicate maxCommands Command.zero
    produceCommand := 0
    consumeCommand := 0
    numCommandsPending := 0 }

/-! ## C string helpers over the line buffer -/

/-- The NUL character. -/
def NUL : Char := Char.ofNat 0

/-- The byte `buf[i]`; the terminator when `i` is the length of the line. -/
def charAt (buf : List Char) (i : Nat) : Char := buf.getD i NUL

/-- Scan of `strchr`: `i` is the index of the head of the list. -/
def strchrFrom : List Char → Nat → Char → Option Nat
  | [], _, _ => none
  | x :: xs, i, c => if x = c then some i else if x = NUL then none else strchrFrom xs (i + 1) c

/-- The call `strchr(buf + start, c)` for a character `c` other than NUL. -/
def strchr (buf : List Char) (start : Nat) (c : Char) : Option Nat :=
  strchrFrom (buf.drop start) start c

/-- The C predicate `isspace`. -/
def isspace (c : Char) : Bool :=
  c = ' ' || c = Char.ofNat 9 || c = Char.ofNat 10 || c = Char.ofNat 11
    || c = Char.ofNat 12 || c = Char.ofNat 13

/-- The digit loop of `atol`: accumulate decimal digits until the first other character. -/
def atolDigits : List Char → Nat → Nat
  | [], acc => acc
  | c :: cs, acc => if c.isDigit then atolDigits cs (acc * 10 + (c.toNat - 48)) else acc

/-- The function `atol` on the characters from the start pointer on: optional white space, an
optional sign, then digits. The sum is kept in a 32-bit `long` (no overflow check, as in
avr-libc). -/
def atol (s : List Char) : Int :=
  match s.dropWhile isspace with
  | [] => 0
  | c :: cs =>
    if c = '-' then wrapLong (-(atolDigits cs 0 : Int))
    else if c = '+' then wrapLong (atolDigits cs 0)
    else wrapLong (atolDigits (c :: cs) 0)

/-- The string that starts at `buf + start` and ends before the first NUL. -/
def cstr (buf : List Char) (start : Nat) : List Char :=
  (buf.drop start).takeWhile (fun c => c != NUL)

/-! ## Single-precision arithmetic of the cadence derivation

The values that occur (`|duration| * 10^6 < 2^35`, `|numSteps| <= 2^31`, and their quotient)
are far from the overflow and subnormal ranges of binary32, so a value is rounded to the
nearest number with a 24-bit significand, ties to even. Finite values are kept as exact
fractions `(numerator, denominator)`.
-/

/-- Count of binary digits, by halving at most `fuel` times. -/
def bitLenAux : Nat → Nat → Nat
  | 0, _ => 0
  | fuel + 1, n => if n = 0 then 0 else bitLenAux fuel (n / 2) + 1

/-- The number of binary digits of `n`. -/
def bitLen (n : Nat) : Nat := bitLenAux n n

/-- The fraction `p / q` rounded to a multiple of `2^k` (nearest, ties to even). -/
def roundAt (p q : Nat) (k : Int) : Nat × Nat :=
  let a := if k < 0 then p * 2 ^ k.natAbs else p
  let b := if k < 0 then q else q * 2 ^ k.natAbs
  let m := a / b
  let r := a % b
  let m := if b < 2 * r ∨ (2 * r = b ∧ m % 2 = 1) then m + 1 else m
  if k < 0 then (m, 2 ^ k.natAbs) else (m * 2 ^ k.natAbs, 1)

/-- The fraction `p / q` rounded to binary32. -/
def roundF32 (p q : Nat) : Nat × Nat :=
  if p = 0 ∨ q = 0 then (0, 1)
  else
    let k : Int := (bitLen p : Int) - (bitLen q : Int) - 23
    let a := if k < 0 then p * 2 ^ k.natAbs else p
    let b := if k < 0 then q else q * 2 ^ k.natAbs
    if a / b < 8388608 then roundAt p q (k - 1) else roundAt p q k

/-- The float `c.duration*1.0e6f/labs(c.numSteps)` as sign (true when negative) and magnitude;
`none` when the divisor is zero (the quotient is then an infinity or a NaN). -/
def microsBetweenSteps (duration numSteps : Int) : Option (Bool × Nat × Nat) :=
  let l := wrapLong |numSteps|
  if l = 0 then none
  else
    let y := roundF32 (duration.natAbs * 1000000) 1
    let z := roundF32 l.natAbs 1
    let q := roundF32 (y.1 * z.2) (y.2 * z.1)
    some (decide (duration < 0) != decide (l < 0), q.1, q.2)

/-- The conversion `c.microstep = microsBetweenSteps` from float to `unsigned long`: truncation
toward zero. C leaves the result undefined when the truncated value is not representable
(negative, `2^32` or more, infinite or NaN); `undef` is what the platform yields then. -/
def toULong (undef : Nat) : Option (Bool × Nat × Nat) → Nat
  | none => wrapULong undef
  | some (neg, n, d) =>
    if neg then (if n / d = 0 then 0 else wrapULong undef)
    else if n / d < 4294967296 then n / d else wrapULong undef

/-- The interval first stored in `c.microstep` (line 296). -/
def rawInterval (undef : Nat) (duration numSteps : Int) : Nat :=
  toULong undef (microsBetweenSteps duration numSteps)

/-- The interval after the clamp of lines 297-298. -/
def clampedInterval (undef : Nat) (duration numSteps : Int) : Nat :=
  if rawInterval undef duration numSteps < 1000 then 1000 else rawInterval undef duration numSteps

/-! ## The command parser -/

/-- One pass of the token loop (lines 268-280) with the token starting at `start`: the buffer
after `*end = 0`, the value read, and `pos`. -/
def parseToken (buf : List Char) (len start : Nat) : List Char × Int × Option Nat :=
  let pos := strchr buf start ' '
  let e := pos.getD len
  let deg := decide (charAt buf (e - 1) = 'd')
  let e := if deg then e - 1 else e
  let buf := buf.set e NUL
  let val := atol (buf.drop start)
  let val := if deg then Int.tdiv (wrapLong (val * stepsPerRevolution)) 360 else val
  (buf, val, pos)

/-- The loop `while(start && numValues < 2)` (lines 267-285); `fuel` is `2 - numValues`. -/
def tokenLoop (len : Nat) : Nat → List Char → Nat → Nat → Int × Int → Int × Int
  | 0, _, _, _, values => values
  | fuel + 1, buf, start, numValues, values =>
    let t := parseToken buf len start
    let values := if numValues = 0 then (t.2.1, values.2) else (values.1, t.2.1)
    match t.2.2 with
    | none => values
    | some p => tokenLoop len fuel t.1 (p + 1) (numValues + 1) values

/-- The array `values` after the token loop (lines 262-285). -/
def rotationValues (line : List Char) : Int × Int :=
  match strchr line 0 ' ' with
  | none => (1020, 0)
  | some sp => tokenLoop line.length 2 line (sp + 1) 0 (1020, 0)

/-- The enqueue of lines 288-312 with `values[0] = v0` and `values[1] = v1`. -/
def enqueue (undef : Nat) (v0 v1 : Int) (s : Controller) : Controller × List Output :=
  let c := s.slot s.produceCommand
  if c.state ≠ Command.done then (s, [Output.tooManyCommands])
  else
    let duration := wrapInt v1
    let m := clampedInterval undef duration v0
    let quick := decide (m < 2000)
    let m := if quick then wrapULong (m * 2) else m
    let c := { c with numSteps := v0, duration := duration, microstep := m, quick := quick,
                      state := Command.pending }
    ({ s with
       commands := s.commands.set s.produceCommand c
       produceCommand := stepCommand s.produceCommand
       numCommandsPending := wrapU8 (s.numCommandsPending + 1) },
     [Output.accepted s.produceCommand v0 m])

/-- The freeze command (lines 219-258): report the mode when the line has no space, else set
it from the character after the first space. -/
def freezeCommand (line : List Char) (s : Controller) : Controller × List Output :=
  match strchr line 0 ' ' with
  | none => (s, [Output.freezeReport s.freezeMode])
  | some sp =>
    let a := charAt line (sp + 1)
    if a = 'n' then ({ s with freezeMode := freezeNone }, [Output.freezeSet freezeNone])
    else if a = 'e' then ({ s with freezeMode := freezeExec }, [Output.freezeSet freezeExec])
    else if a = 'c' then ({ s with freezeMode := freezeComm }, [Output.freezeSet freezeComm])
    else (s, [Output.freezeUnknown (cstr line (sp + 1))])

/-- The rotation command (lines 260-312): parse the values, apply `flip`, enqueue. -/
def rotateCommand (undef : Nat) (line : List Char) (s : Controller) : Controller × List Output :=
  let v := rotationValues line
  let v0 := if charAt line 0 = 'r' then wrapLong (-v.1) else v.1
  enqueue undef v0 v.2 s

/-- The parse of one assembled line (lines 210-317): the echo, then the dispatch on the first
character. -/
def processLine (undef : Nat) (line : List Char) (s : Controller) : Controller × List Output :=
  let echo := Output.echo s.produceCommand (cstr line 0)
  let c0 := charAt line 0
  if c0 = 's' then ({ s with reporterIndex := 0 }, [echo])
  else if c0 = 'f' then ((freezeCommand line s).1, echo :: (freezeCommand line s).2)
  else if c0 = 'r' ∨ c0 = 'l' then
    ((rotateCommand undef line s).1, echo :: (rotateCommand undef line s).2)
  else if c0 = 'c' then (clearCommands s, [echo])
  else (s, [echo])

/-! ## The step scheduler -/

/-- The loop `for(i = 0; i < steps; ++i)` of lines 339-348 on `(c.numSteps, eighth)`. -/
def advanceSteps : Nat → Int → Nat → Int × Nat
  | 0, n, e => (n, e)
  | k + 1, n, e =>
    let n1 := if n < 0 then n + 1 else n
    let e1 := if n < 0 then wrapU8 (e + 255) else e
    let n2 := if 0 < n1 then n1 - 1 else n1
    let e2 := if 0 < n1 then wrapU8 (e1 + 1) else e1
    advanceSteps k n2 e2

/-- Lines 328-333: the active command has no steps left and becomes `Done`. -/
def finishActive (s : Controller) : Controller :=
  { s with
    commands := s.commands.set s.consumeCommand
      { s.slot s.consumeCommand with state := Command.done }
    executing := false }

/-- Lines 337-349 without the drive call: consume one or two steps of the active command, move
`eighth` along, and push `nextStepTime` on by `microstep`. -/
def advanceActive (s : Controller) : Controller :=
  let c := s.slot s.consumeCommand
  let r := advanceSteps (if c.quick then 2 else 1) c.numSteps s.eighth
  { s with
    commands := s.commands.set s.consumeCommand
      { c with numSteps := r.1, nextStepTime := wrapULong (c.nextStepTime + c.microstep) }
    eighth := r.2
    executing := true }

/-- Lines 353-354: the cursor `consumeCommand` after the conditional `stepCommand`. -/
def nextConsume (s : Controller) : Nat :=
  if (s.slot s.consumeCommand).state ≠ Command.pending then stepCommand s.consumeCommand
  else s.consumeCommand

/-- Lines 355-369: the pending command at the (stepped) cursor becomes `Active`. -/
def promote (now : Nat) (s : Controller) : Controller :=
  let c := s.slot (nextConsume s)
  { s with
    commands := s.commands.set (nextConsume s)
      { c with state := Command.active, nextStepTime := now }
    consumeCommand := nextConsume s
    eighth := if c.quick then s.eighth ||| 1 else s.eighth
    numCommandsPending := s.numCommandsPending - 1
    executing := true }

/-- The scheduler part of `loop()` (lines 324-370); `now` is the value of `micros()`. -/
def schedulerTick (now : Nat) (s : Controller) : Controller × List Output :=
  if (s.slot s.consumeCommand).state = Command.active then
    if (s.slot s.consumeCommand).numSteps = 0 then
      (finishActive s, [Output.finished s.consumeCommand])
    else if s.freezeMode ≠ freezeExec then
      if (s.slot s.consumeCommand).nextStepTime ≤ now then
        (advanceActive s, [Output.drive (s.eighth % 8)])
      else ({ s with executing := true }, [])
    else ({ s with executing := true }, [])
  else if 0 < s.numCommandsPending ∧ s.freezeMode ≠ freezeExec then
    if (s.slot (nextConsume s)).state = Command.pending then
      (promote now s, [Output.starting (nextConsume s) (s.slot (nextConsume s)).numSteps])
    else ({ s with consumeCommand := nextConsume s, executing := false }, [])
  else ({ s with executing := false }, [])

/-! ## Runs of the controller -/

/-- One event of a run: a line handed to the parser (with the value the platform yields for an
undefined float conversion) or one pass of the scheduler at clock value `now`. -/
inductive Step where
  | line (undef : Nat) (text : List Char)
  | tick (now : Nat)
deriving DecidableEq, Repr

/-- The state after one event. -/
def Controller.step (s : Controller) : Step → Controller
  | Step.line undef text => (processLine undef text s).1
  | Step.tick now => (schedulerTick now s).1

/-- The state after a sequence of events. -/
def run (s : Controller) (steps : List Step) : Controller := steps.foldl Controller.step s

/-- States reachable from the state after `setup()`. -/
def Reachable (s : Controller) : Prop := ∃ steps : List Step, run Controller.init steps = s

/-- The queue has its `maxCommands` slots and both cursors index into it. -/
def WellFormed (s : Controller) : Prop :=
  s.commands.length = maxCommands ∧ s.produceCommand < maxCommands ∧
    s.consumeCommand < maxCommands

/-- A line whose first character is `l` or `r`. -/
def IsRotation (line : List Char) : Prop := charAt line 0 = 'l' ∨ charAt line 0 = 'r'

instance (line : List Char) : Decidable (IsRotation line) := by
  unfold IsRotation; infer_instance

/-- The number of slots that are not `Done`. -/
def busy (s : Controller) : Nat := s.commands.countP (fun c => decide (c.state ≠ Command.done))

/-- Every `Active` slot is the slot at `consumeCommand`. -/
def ActiveAtConsume (s : Controller) : Prop :=
  ∀ i, (s.slot i).state = Command.active → i = s.consumeCommand

/-- An accepted enqueue: a rotation line that finds its target slot `Done`. -/
def accepted (s : Controller) : Step → Bool
  | Step.line _ text => decide (IsRotation text ∧ (s.slot s.produceCommand).state = Command.done)
  | Step.tick _ => false

/-- The number of accepted enqueues in a run from `s`. -/
def acceptedCount : Controller → List Step → Nat
  | _, [] => 0
  | s, st :: rest => (if accepted s st then 1 else 0) + acceptedCount (s.step st) rest

/-- Between `s` and `t` some slot that was not `Done` has become `Done` (a command completed or
was cleared). -/
def released (s t : Controller) : Bool :=
  (List.range s.commands.length).any
    (fun i => decide ((s.slot i).state ≠ Command.done ∧ (t.slot i).state = Command.done))

/-- No event of the run from `s` turns a slot that is not `Done` into a `Done` one. -/
def noRelease : Controller → List Step → Bool
  | _, [] => true
  | s, st :: rest => !released s (s.step st) && noRelease (s.step st) rest

/-- The queue after `maxCommands` lines `l` sent to the freshly set up controller. -/
def fullQueue : Controller := run Controller.init (List.replicate maxCommands (Step.line 0 ['l']))

/-- A run that leaves a command `Active` in slot 0 with steps still to take. -/
def inFlight : Controller :=
  run Controller.init [Step.line 0 ['l', ' ', '5'], Step.tick 7, Step.tick 8]

/-- A run that leaves a quick command `Active` in slot 0 with exactly one step left. -/
def lastStep : Controller :=
  run Controller.init [Step.line 0 ['l', ' ', '5'], Step.tick 7, Step.tick 8, Step.tick 2007]

/-- A controller with execution frozen, a command `Active` in slot 0 and one `Pending` in
slot 1. -/
def frozen : Controller :=
  run Controller.init [Step.line 0 ['l', ' ', '5'], Step.line 0 ['r', ' ', '9'], Step.tick 7,
    Step.line 0 ['f', ' ', 'e']]

/-- The step-due criterion of the specification: the unsigned difference `now - nextStepTime`
modulo `2^32` is below `2^31`. -/
def wrapSafeDue (now nextStepTime : Nat) : Prop :=
  wrapULong (now + 4294967296 - nextStepTime) < 2147483648

instance (now nextStepTime : Nat) : Decidable (wrapSafeDue now nextStepTime) := by
  unfold wrapSafeDue; infer_instance

/-- A command of 5 steps in 1 second (200000 microseconds per step), started at clock value
`4294967000`, 296 microseconds before the clock wraps. -/
def startedBeforeWrap : Controller :=
  run Controller.init [Step.line 0 ['l', ' ', '5', ' ', '1'], Step.tick 4294967000]

/-- The same command after its first step, taken at clock value `4294967000`: the next step is
due at `(4294967000 + 200000) mod 2^32 = 199704`. -/
def steppedBeforeWrap : Controller := (schedulerTick 4294967000 startedBeforeWrap).1

/-- Decimal digits of `n`, most significant first; `fuel` bounds the number of digits. -/
def numeralAux : Nat → Nat → List Char
  | 0, _ => []
  | fuel + 1, n =>
    if n < 10 then [Nat.digitChar n]
    else numeralAux fuel (n / 10) ++ [Nat.digitChar (n % 10)]

/-- The decimal numeral of a natural number. -/
def numeral (n : Nat) : List Char := numeralAux (n + 1) n

/-- The decimal numeral of an integer, with a leading `-` when negative. -/
def intNumeral (n : Int) : List Char :=
  if n < 0 then '-' :: numeral n.natAbs else numeral n.natAbs

/-! ## The status reporter -/

/-- Two's-complement reduction to an `int8_t`. -/
def wrapI8 (x : Int) : Int := (x + 128) % 256 - 128

/-- The method `StatusReporter::command(index)`: one line for a slot that is not `Done`. The
degrees are `c.numSteps*360/stepsPerRevolution` in `long`, the time left is
`c.microstep*c.numSteps/1000` in `unsigned long`. -/
def reporterCommand (s : Controller) (index : Nat) : List Output :=
  let c := s.slot index
  if c.state ≠ Command.done then
    [Output.reportSlot index c.numSteps
      (Int.tdiv (wrapLong (c.numSteps * 360)) stepsPerRevolution)
      (decide (c.state = Command.active))
      (if c.state = Command.active
        then (wrapULong (c.microstep * (c.numSteps % 4294967296).toNat) / 1000 : Nat)
        else c.duration)
      c.quick]
  else []

/-- What `StatusReporter::step()` prints at index `i` (the `switch` of lines 167-181): nothing
at 0 (the case calls `start()`), `header1()` at 1, `header2()` at 2, `command(i-3)` from 3
on. -/
def reporterEmit (s : Controller) (i : Int) : List Output :=
  if i = 0 then []
  else if i = 1 then [Output.reportHeader1 s.executing]
  else if i = 2 then [Output.reportHeader2 s.numCommandsPending]
  else if 3 ≤ i ∧ i - 3 < maxCommands then reporterCommand s (i - 3).toNat
  else []

/-- The index after `++i; if(i >= maxCommands+3) i = -1;` (lines 182-184). -/
def reporterNext (i : Int) : Int :=
  if (maxCommands : Int) + 3 ≤ wrapI8 (i + 1) then -1 else wrapI8 (i + 1)

/-- The method `StatusReporter::step()`: the new state, the value returned, the lines
printed. -/
def reporterStep (s : Controller) : Controller × Bool × List Output :=
  if s.reporterIndex < 0 then (s, false, [])
  else
    ({ s with reporterIndex := reporterNext s.reporterIndex }, true,
      reporterEmit s s.reporterIndex)

/-- The state after `n` calls of `step()` with nothing else in between. -/
def reporterSteps : Nat → Controller → Controller
  | 0, s => s
  | n + 1, s => reporterSteps n (reporterStep s).1

/-! ## Byte intake and line assembly -/

/-- The class `Buffer`: a ring of 256 bytes with `uint8_t` cursors. -/
structure Buffer where
  buffer : List Char
  readPos : Nat
  writePos : Nat
deriving DecidableEq, Repr

/-- The zero-initialised global `inputBuffer`. -/
def Buffer.init : Buffer :=
  { buffer := List.replicate 256 NUL, readPos := 0, writePos := 0 }

/-- The method `Buffer::write`. -/
def Buffer.write (b : Buffer) (c : Char) : Buffer :=
  { b with buffer := b.buffer.set b.writePos c, writePos := wrapU8 (b.writePos + 1) }

/-- The method `Buffer::available`. -/
def Buffer.available (b : Buffer) : Bool := decide (b.readPos ≠ b.writePos)

/-- The method `Buffer::read`: the byte read and the buffer after. -/
def Buffer.read (b : Buffer) : Char × Buffer :=
  (b.buffer.getD b.readPos NUL,
    { b with buffer := b.buffer.set b.readPos NUL, readPos := wrapU8 (b.readPos + 1) })

/-- The whole state of the program: the controller, the intake buffer, `lastByteMicros`, and
the first `commandLength` bytes of the line buffer `command`. -/
structure Machine where
  ctl : Controller
  inputBuffer : Buffer
  lastByteMicros : Nat
  command : List Char
deriving DecidableEq, Repr

/-- The variable `commandLength`. -/
def Machine.commandLength (m : Machine) : Nat := m.command.length

/-- The state after `setup()`. -/
def Machine.init : Machine :=
  { ctl := Controller.init, inputBuffer := Buffer.init, lastByteMicros := 0, command := [] }

/-- What the environment offers to one pass of `loop()`: the bytes that `btSerial` and
`Serial` have available, the value the platform yields for an undefined float conversion, and
the values of `micros()` at line 202, at line 204 and in the scheduler (line 335 or 366). -/
structure LoopInput where
  bt : List Char
  serial : List Char
  undef : Nat
  microsIntake : Nat
  microsGate : Nat
  microsStep : Nat
deriving DecidableEq, Repr

/-- The test `c == '\n' || c == '\r' || c == ';'` of line 207. -/
def isTerminator (c : Char) : Bool :=
  c = Char.ofNat 10 || c = Char.ofNat 13 || c = ';'

/-- Lines 190-203: step the status reporter unless communication is frozen during execution;
when the reporter is idle, move the available bytes into the intake buffer. -/
def intakePhase (inp : LoopInput) (m : Machine) : Machine × List Output :=
  if m.ctl.freezeMode ≠ freezeComm ∨ m.ctl.executing = false then
    if (reporterStep m.ctl).2.1 = false then
      let b := (inp.bt ++ inp.serial).foldl Buffer.write m.inputBuffer
      ({ m with
         ctl := (reporterStep m.ctl).1
         inputBuffer := b
         lastByteMicros := if inp.bt ++ inp.serial ≠ [] then inp.microsIntake
           else m.lastByteMicros },
       (reporterStep m.ctl).2.2)
    else ({ m with ctl := (reporterStep m.ctl).1 }, (reporterStep m.ctl).2.2)
  else (m, [])

/-- The body of the drain loop for the byte `c` just read (lines 207-322): the state after,
what is printed, and the line handed to the parser if there is one. -/
def drainByte (undef : Nat) (c : Char) (m : Machine) : Machine × List Output × List (List Char) :=
  if isTerminator c then
    if m.command.length = 0 then (m, [], [])
    else
      ({ m with ctl := (processLine undef m.command m.ctl).1, command := [] },
        (processLine undef m.command m.ctl).2, [m.command])
  else if m.command.length < 63 ∧ (c ≠ ' ' ∨ 0 < m.command.length) then
    ({ m with command := m.command ++ [c] }, [], [])
  else (m, [], [])

/-- The drain loop body run over a sequence of bytes, in order. -/
def drainBytes (undef : Nat) : List Char → Machine → Machine × List Output × List (List Char)
  | [], m => (m, [], [])
  | c :: cs, m =>
    ((drainBytes undef cs (drainByte undef c m).1).1,
      (drainByte undef c m).2.1 ++ (drainBytes undef cs (drainByte undef c m).1).2.1,
      (drainByte undef c m).2.2 ++ (drainBytes undef cs (drainByte undef c m).1).2.2)

/-- The loop `while(shouldComm && inputBuffer.available())` of line 205, at most `fuel`
passes. -/
def drainLoop (undef : Nat) : Nat → Machine → Machine × List Output × List (List Char)
  | 0, m => (m, [], [])
  | fuel + 1, m =>
    if m.inputBuffer.available then
      let m1 := (drainByte undef m.inputBuffer.read.1 { m with inputBuffer := m.inputBuffer.read.2 })
      ((drainLoop undef fuel m1.1).1, m1.2.1 ++ (drainLoop undef fuel m1.1).2.1,
        m1.2.2 ++ (drainLoop undef fuel m1.1).2.2)
    else (m, [], [])

/-- Lines 204-323: when more than 10000 microseconds (unsigned difference) have passed since
the last byte was written, drain the intake buffer; 256 passes empty it. -/
def drainPhase (inp : LoopInput) (m : Machine) : Machine × List Output × List (List Char) :=
  if 10000 < wrapULong (inp.microsGate + 4294967296 - m.lastByteMicros) then
    drainLoop inp.undef 256 m
  else (m, [], [])

/-- One pass of `loop()`: intake or status fragment, gated drain and parse, scheduler. -/
def loop (inp : LoopInput) (m : Machine) : Machine × List Output :=
  let a := intakePhase inp m
  let b := drainPhase inp a.1
  let c := schedulerTick inp.microsStep b.1.ctl
  ({ b.1 with ctl := c.1 }, a.2 ++ b.2.1 ++ c.2)

/-- No input and the clock at `t`. -/
def quietInput (t : Nat) : LoopInput :=
  { bt := [], serial := [], undef := 0, microsIntake := t, microsGate := t, microsStep := t }

/-- A machine with communication frozen, a status report mid-stream at index 1 and a command
executing: the lines `l 2`, `l 5 100`, `s`, `f c` arrive together; the first command runs and
finishes while the report is held back, the reporter then takes its first step, and the second
command starts. -/
def reportHeldBack : Machine :=
  (loop (quietInput 20040)
    (loop (quietInput 20030)
      (loop (quietInput 20020)
        (loop (quietInput 20010)
          (loop { quietInput 0 with
                  bt := ['l', ' ', '2', ';', 'l', ' ', '5', ' ', '1', '0', '0', ';', 's', ';',
                    'f', ' ', 'c', ';'] }
            Machine.init).1).1).1).1).1

/-- A command of 9 steps in 9 seconds (`microstep = 1000000`), started at clock value 1000,
frozen by `f e` before its first step and released by `f n`; the clock has since reached
5000000. -/
def resumed : Controller :=
  run Controller.init [Step.line 0 ['l', ' ', '9', ' ', '9'], Step.tick 1000,
    Step.line 0 ['f', ' ', 'e'], Step.tick 2000000, Step.tick 4000000,
    Step.line 0 ['f', ' ', 'n']]

/-- A controller with execution frozen whose `Active` command in slot 0 has no steps left. -/
def frozenAtZero : Controller :=
  run Controller.init [Step.line 0 ['l', ' ', '2'], Step.tick 7, Step.tick 8,
    Step.line 0 ['f', ' ', 'e']]

/-- A full queue whose first command has just completed: `l 2` goes to slot 0, `l 7` to slot 1,
22 more lines `l` fill slots 2 to 23 (so `produceCommand` is back at 0); the command of slot 0
is started, takes its two steps and is set `Done`, with `consumeCommand` still 0. -/
def slotZeroFreed : Controller :=
  run Controller.init
    ([Step.line 0 ['l', ' ', '2'], Step.line 0 ['l', ' ', '7']] ++
      List.replicate 22 (Step.line 0 ['l']) ++ [Step.tick 0, Step.tick 1, Step.tick 2])

/-- The number of slots that are `Pending`. -/
def pendingSlots (s : Controller) : Nat :=
  s.commands.countP (fun c => decide (c.state = Command.pending))

/-- The counter `numCommandsPending` is the number of `Pending` slots. -/
def PendingCounted (s : Controller) : Prop := s.numCommandsPending = pendingSlots s

/-- The state with a command in flight, right after a line `s` has started the reporter. -/
def reportStarted : Controller := (processLine 0 ['s'] inFlight).1

/-! ## Line assembly as the specification words it -/

/-- Specification wording: the runs of bytes between consecutive terminators, in order; `acc`
is the run in progress, and the run after the last terminator is not ended yet. -/
def terminatedRuns : List Char → List Char → List (List Char)
  | _, [] => []
  | acc, c :: cs =>
    if isTerminator c then acc :: terminatedRuns [] cs else terminatedRuns (acc ++ [c]) cs

/-- Specification wording: the run in progress after all the bytes. -/
def openRun : List Char → List Char → List Char
  | acc, [] => acc
  | acc, c :: cs => if isTerminator c then openRun [] cs else openRun (acc ++ [c]) cs

/-- Specification wording: a run with its leading spaces removed (interior and trailing spaces
kept), truncated to its first 63 characters. -/
def trimmedLine (run : List Char) : List Char :=
  (run.dropWhile (fun c => decide (c = ' '))).take 63

/-- Specification wording: the lines handed to the parser are the trimmed terminated runs that
are not empty. -/
def assembledLines (acc bytes : List Char) : List (List Char) :=
  ((terminatedRuns acc bytes).map trimmedLine).filter (fun l => decide (l ≠ []))

/-- The number of bytes waiting in the ring: `writePos - readPos` modulo 256. -/
def Buffer.count (b : Buffer) : Nat := (b.writePos + 256 - b.readPos) % 256

/-- The bytes waiting in the ring, in the order in which `read` yields them. -/
def Buffer.waiting (b : Buffer) : List Char :=
  (List.range b.count).map (fun k => b.buffer.getD ((b.readPos + k) % 256) NUL)

/-- The ring has its 256 bytes and both cursors are `uint8_t` values. -/
def Buffer.WellFormed (b : Buffer) : Prop :=
  b.buffer.length = 256 ∧ b.readPos < 256 ∧ b.writePos < 256

/-! ## Basic facts -/

theorem slot_set (s : Controller) (i j : Nat) (c : Command) :
    (s.commands.set i c).getD j Command.zero =
      if i = j ∧ i < s.commands.length then c else s.slot j := by
  unfold Controller.slot
  simp only [List.getD_eq_getElem?_getD, List.getElem?_set]
  by_cases h : i = j
  · subst h
    by_cases h2 : i < s.commands.length
    · simp [h2]
    · have : s.commands[i]? = none := by
        rw [List.getElem?_eq_none_iff]; omega
      simp [h2, this]
  · simp [h]

theorem processLine_rotation (undef : Nat) (line : List Char) (s : Controller)
    (h : IsRotation line) :
    (processLine undef line s).1 = (rotateCommand undef line s).1 := by
  unfold processLine
  rcases h with h | h <;> simp [h]

theorem processLine_freeze (undef : Nat) (line : List Char) (s : Controller)
    (h : charAt line 0 = 'f') :
    (processLine undef line s).1 = (freezeCommand line s).1 := by
  unfold processLine
  simp [h]

theorem processLine_clear (undef : Nat) (line : List Char) (s : Controller)
    (h : charAt line 0 = 'c') :
    (processLine undef line s).1 = clearCommands s := by
  unfold processLine
  simp [h]

theorem freezeCommand_cases (line : List Char) (s : Controller) :
    ∃ m, (freezeCommand line s).1 = { s with freezeMode := m } := by
  unfold freezeCommand
  split
  · exact ⟨s.freezeMode, rfl⟩
  · simp only
    split_ifs
    · exact ⟨_, rfl⟩
    · exact ⟨_, rfl⟩
    · exact ⟨_, rfl⟩
    · exact ⟨s.freezeMode, rfl⟩

theorem processLine_cases (undef : Nat) (line : List Char) (s : Controller) :
    (processLine undef line s).1 = s ∨
    (processLine undef line s).1 = { s with reporterIndex := 0 } ∨
    (∃ m, (processLine undef line s).1 = { s with freezeMode := m }) ∨
    (processLine undef line s).1 = clearCommands s ∨
    (IsRotation line ∧ ∃ v0 v1, (processLine undef line s).1 = (enqueue undef v0 v1 s).1) := by
  by_cases h1 : charAt line 0 = 's'
  · right; left; unfold processLine; simp [h1]
  by_cases h2 : charAt line 0 = 'f'
  · right; right; left
    rw [processLine_freeze undef line s h2]
    exact freezeCommand_cases line s
  by_cases h3 : charAt line 0 = 'r' ∨ charAt line 0 = 'l'
  · right; right; right; right
    exact ⟨h3.symm, _, _, processLine_rotation undef line s h3.symm⟩
  by_cases h4 : charAt line 0 = 'c'
  · right; right; right; left; exact processLine_clear undef line s h4
  · left; unfold processLine; simp [h1, h2, h3, h4]

theorem enqueue_busy (undef : Nat) (v0 v1 : Int) (s : Controller)
    (h : (s.slot s.produceCommand).state ≠ Command.done) :
    enqueue undef v0 v1 s = (s, [Output.tooManyCommands]) := by
  unfold enqueue
  simp [h]

theorem stepCommand_lt (c : Nat) : stepCommand c < maxCommands := by
  unfold stepCommand maxCommands
  omega

theorem enqueue_free (undef : Nat) (v0 v1 : Int) (s : Controller)
    (h : (s.slot s.produceCommand).state = Command.done) :
    (enqueue undef v0 v1 s).1 =
      { s with
        commands := s.commands.set s.produceCommand
          { s.slot s.produceCommand with
            numSteps := v0
            duration := wrapInt v1
            microstep := if clampedInterval undef (wrapInt v1) v0 < 2000
              then wrapULong (clampedInterval undef (wrapInt v1) v0 * 2)
              else clampedInterval undef (wrapInt v1) v0
            quick := decide (clampedInterval undef (wrapInt v1) v0 < 2000)
            state := Command.pending }
        produceCommand := stepCommand s.produceCommand
        numCommandsPending := wrapU8 (s.numCommandsPending + 1) } := by
  unfold enqueue
  simp [h]

theorem enqueue_wellFormed (undef : Nat) (v0 v1 : Int) (s : Controller) (h : WellFormed s) :
    WellFormed (enqueue undef v0 v1 s).1 := by
  by_cases hb : (s.slot s.produceCommand).state = Command.done
  · rw [enqueue_free undef v0 v1 s hb]
    obtain ⟨h1, h2, h3⟩ := h
    exact ⟨by simp [h1], stepCommand_lt _, h3⟩
  · rw [enqueue_busy undef v0 v1 s hb]; exact h

theorem processLine_wellFormed (undef : Nat) (line : List Char) (s : Controller)
    (h : WellFormed s) : WellFormed (processLine undef line s).1 := by
  rcases processLine_cases undef line s with e | e | ⟨m, e⟩ | e | ⟨_, v0, v1, e⟩ <;> rw [e]
  · exact h
  · exact h
  · exact h
  · exact ⟨by simp [clearCommands], by simp [clearCommands, maxCommands],
      by simp [clearCommands, maxCommands]⟩
  · exact enqueue_wellFormed undef v0 v1 s h

theorem nextConsume_lt (s : Controller) (h : s.consumeCommand < maxCommands) :
    nextConsume s < maxCommands := by
  unfold nextConsume
  split_ifs
  · exact stepCommand_lt _
  · exact h

theorem schedulerTick_wellFormed (now : Nat) (s : Controller) (h : WellFormed s) :
    WellFormed (schedulerTick now s).1 := by
  obtain ⟨h1, h2, h3⟩ := h
  have h4 := nextConsume_lt s h3
  unfold schedulerTick
  split_ifs <;>
    simp [WellFormed, finishActive, advanceActive, promote, h1, h2, h3, h4]

theorem slot_replicate (n i : Nat) :
    (List.replicate n Command.zero).getD i Command.zero = Command.zero := by
  simp only [List.getD_eq_getElem?_getD, List.getElem?_replicate]
  split <;> rfl

theorem clearCommands_slot (s : Controller) (i : Nat) :
    (clearCommands s).slot i = Command.zero := by
  simp [clearCommands, Controller.slot, slot_replicate]

theorem finishActive_slot (s : Controller) (j : Nat) :
    (finishActive s).slot j =
      if s.consumeCommand = j ∧ s.consumeCommand < s.commands.length
      then { s.slot s.consumeCommand with state := Command.done } else s.slot j := by
  simp only [finishActive, Controller.slot, slot_set]

theorem advanceActive_slot (s : Controller) (j : Nat) :
    (advanceActive s).slot j =
      if s.consumeCommand = j ∧ s.consumeCommand < s.commands.length
      then { s.slot s.consumeCommand with
             numSteps := (advanceSteps (if (s.slot s.consumeCommand).quick then 2 else 1)
               (s.slot s.consumeCommand).numSteps s.eighth).1
             nextStepTime := wrapULong ((s.slot s.consumeCommand).nextStepTime +
               (s.slot s.consumeCommand).microstep) }
      else s.slot j := by
  simp only [advanceActive, Controller.slot, slot_set]

theorem promote_slot (now : Nat) (s : Controller) (j : Nat) :
    (promote now s).slot j =
      if nextConsume s = j ∧ nextConsume s < s.commands.length
      then { s.slot (nextConsume s) with state := Command.active, nextStepTime := now }
      else s.slot j := by
  simp only [promote, Controller.slot, slot_set]

theorem enqueue_slot (undef : Nat) (v0 v1 : Int) (s : Controller) (j : Nat)
    (h : (s.slot s.produceCommand).state = Command.done) :
    (enqueue undef v0 v1 s).1.slot j =
      if s.produceCommand = j ∧ s.produceCommand < s.commands.length
      then { s.slot s.produceCommand with
            numSteps := v0
            duration := wrapInt v1
            microstep := if clampedInterval undef (wrapInt v1) v0 < 2000
              then wrapULong (clampedInterval undef (wrapInt v1) v0 * 2)
              else clampedInterval undef (wrapInt v1) v0
            quick := decide (clampedInterval undef (wrapInt v1) v0 < 2000)
            state := Command.pending }
      else s.slot j := by
  rw [enqueue_free undef v0 v1 s h]
  simp only [Controller.slot, slot_set]

theorem finishActive_state (s : Controller) (j : Nat) :
    ((finishActive s).slot j).state =
      if s.consumeCommand = j ∧ s.consumeCommand < s.commands.length
      then Command.done else (s.slot j).state := by
  rw [finishActive_slot]
  by_cases hc : s.consumeCommand = j ∧ s.consumeCommand < s.commands.length
  · rw [if_pos hc, if_pos hc]
  · rw [if_neg hc, if_neg hc]

theorem advanceActive_state (s : Controller) (j : Nat) :
    ((advanceActive s).slot j).state = (s.slot j).state := by
  rw [advanceActive_slot]
  by_cases hc : s.consumeCommand = j ∧ s.consumeCommand < s.commands.length
  · rw [if_pos hc, hc.1]
  · rw [if_neg hc]

theorem promote_state (now : Nat) (s : Controller) (j : Nat) :
    ((promote now s).slot j).state =
      if nextConsume s = j ∧ nextConsume s < s.commands.length
      then Command.active else (s.slot j).state := by
  rw [promote_slot]
  by_cases hc : nextConsume s = j ∧ nextConsume s < s.commands.length
  · rw [if_pos hc, if_pos hc]
  · rw [if_neg hc, if_neg hc]

theorem enqueue_state (undef : Nat) (v0 v1 : Int) (s : Controller) (j : Nat)
    (h : (s.slot s.produceCommand).state = Command.done) :
    ((enqueue undef v0 v1 s).1.slot j).state =
      if s.produceCommand = j ∧ s.produceCommand < s.commands.length
      then Command.pending else (s.slot j).state := by
  rw [enqueue_slot undef v0 v1 s j h]
  by_cases hc : s.produceCommand = j ∧ s.produceCommand < s.commands.length
  · rw [if_pos hc, if_pos hc]
  · rw [if_neg hc, if_neg hc]

theorem enqueue_activeAtConsume (undef : Nat) (v0 v1 : Int) (s : Controller)
    (h : ActiveAtConsume s) : ActiveAtConsume (enqueue undef v0 v1 s).1 := by
  by_cases hb : (s.slot s.produceCommand).state = Command.done
  · intro i hi
    rw [enqueue_state undef v0 v1 s i hb] at hi
    have hc : (enqueue undef v0 v1 s).1.consumeCommand = s.consumeCommand := by
      rw [enqueue_free undef v0 v1 s hb]
    rw [hc]
    split_ifs at hi with hc
    · simp [Command.pending, Command.active] at hi
    · exact h i hi
  · rw [enqueue_busy undef v0 v1 s hb]; exact h

theorem processLine_activeAtConsume (undef : Nat) (line : List Char) (s : Controller)
    (h : ActiveAtConsume s) : ActiveAtConsume (processLine undef line s).1 := by
  rcases processLine_cases undef line s with e | e | ⟨m, e⟩ | e | ⟨_, v0, v1, e⟩ <;> rw [e]
  · exact h
  · exact h
  · exact h
  · intro i hi
    rw [clearCommands_slot] at hi
    simp [Command.zero, Command.active] at hi
  · exact enqueue_activeAtConsume undef v0 v1 s h

theorem schedulerTick_activeAtConsume (now : Nat) (s : Controller)
    (h : ActiveAtConsume s) : ActiveAtConsume (schedulerTick now s).1 := by
  unfold schedulerTick
  split_ifs with h1 h2 h3 h4 h5 h6
  · intro i hi
    simp only [finishActive_state] at hi
    split_ifs at hi with hc
    · exact hc.1.symm
    · exact h i hi
  · intro i hi
    simp only [advanceActive_state] at hi
    exact h i hi
  · exact h
  · exact h
  · intro i hi
    simp only [promote_state] at hi
    split_ifs at hi with hc
    · exact hc.1.symm
    · exact absurd (h i hi ▸ hi) h1
  · intro i hi
    exact absurd (h i hi ▸ hi) h1
  · intro i hi
    exact absurd (h i hi ▸ hi) h1

theorem init_wellFormed : WellFormed Controller.init := by
  simp [WellFormed, Controller.init, maxCommands]

theorem init_activeAtConsume : ActiveAtConsume Controller.init := by
  intro i hi
  simp [Controller.init, Controller.slot, slot_replicate, Command.zero, Command.active] at hi

theorem step_wellFormed (s : Controller) (st : Step) (h : WellFormed s) :
    WellFormed (s.step st) := by
  cases st with
  | line undef text => exact processLine_wellFormed undef text s h
  | tick now => exact schedulerTick_wellFormed now s h

theorem step_activeAtConsume (s : Controller) (st : Step) (h : ActiveAtConsume s) :
    ActiveAtConsume (s.step st) := by
  cases st with
  | line undef text => exact processLine_activeAtConsume undef text s h
  | tick now => exact schedulerTick_activeAtConsume now s h

theorem run_wellFormed (steps : List Step) (s : Controller) (h : WellFormed s) :
    WellFormed (run s steps) := by
  induction steps generalizing s with
  | nil => exact h
  | cons st rest ih => exact ih (s.step st) (step_wellFormed s st h)

theorem run_activeAtConsume (steps : List Step) (s : Controller) (h : ActiveAtConsume s) :
    ActiveAtConsume (run s steps) := by
  induction steps generalizing s with
  | nil => exact h
  | cons st rest ih => exact ih (s.step st) (step_activeAtConsume s st h)

theorem slot_eq_getElem (s : Controller) (i : Nat) (h : i < s.commands.length) :
    s.slot i = s.commands[i] := by
  simp [Controller.slot, List.getD_eq_getElem?_getD, h]

theorem busy_le (s : Controller) : busy s ≤ s.commands.length := List.countP_le_length _

theorem busy_set (s t : Controller) (i : Nat) (c : Command) (hi : i < s.commands.length)
    (ht : t.commands = s.commands.set i c) :
    busy t + (if (s.slot i).state ≠ Command.done then 1 else 0) =
      busy s + (if c.state ≠ Command.done then 1 else 0) := by
  unfold busy
  rw [ht, List.countP_set _ _ _ _ hi, slot_eq_getElem s i hi]
  have hle := List.boole_getElem_le_countP
    (fun c : Command => decide (c.state ≠ Command.done)) s.commands i hi
  simp only [decide_eq_true_eq] at hle ⊢
  omega

theorem busy_congr (s t : Controller) (h : t.commands = s.commands) : busy t = busy s := by
  unfold busy; rw [h]

theorem released_false_iff (s t : Controller) :
    released s t = false ↔
      ∀ i, i < s.commands.length → (s.slot i).state ≠ Command.done →
        (t.slot i).state ≠ Command.done := by
  unfold released
  rw [Bool.eq_false_iff]
  simp only [ne_eq, List.any_eq_true, List.mem_range, decide_eq_true_eq, not_exists, not_and]

theorem busy_eq_zero_of_all_done (s : Controller)
    (h : ∀ i, i < s.commands.length → (s.slot i).state = Command.done) : busy s = 0 := by
  unfold busy
  rw [List.countP_eq_zero]
  intro a ha
  obtain ⟨i, hi, rfl⟩ := List.getElem_of_mem ha
  have := h i hi
  rw [slot_eq_getElem s i hi] at this
  simp [this]

theorem slot_busy_of_full (s : Controller) (i : Nat) (hi : i < s.commands.length)
    (h : busy s = s.commands.length) : (s.slot i).state ≠ Command.done := by
  unfold busy at h
  rw [List.countP_eq_length] at h
  have := h s.commands[i] (List.getElem_mem hi)
  rw [slot_eq_getElem s i hi]
  simpa using this

theorem busy_enqueue (undef : Nat) (v0 v1 : Int) (s : Controller) (hw : WellFormed s)
    (h : (s.slot s.produceCommand).state = Command.done) :
    busy (enqueue undef v0 v1 s).1 = busy s + 1 := by
  have hi : s.produceCommand < s.commands.length := by rw [hw.1]; exact hw.2.1
  have := busy_set s (enqueue undef v0 v1 s).1 s.produceCommand _ hi
    (by rw [enqueue_free undef v0 v1 s h])
  simp [h, Command.pending, Command.done] at this
  exact this

theorem busy_clear (s : Controller) : busy (clearCommands s) = 0 := by
  apply busy_eq_zero_of_all_done
  intro i _
  rw [clearCommands_slot]; rfl

theorem busy_processLine (undef : Nat) (line : List Char) (s : Controller) (hw : WellFormed s)
    (hr : released s (processLine undef line s).1 = false) :
    busy (processLine undef line s).1 =
      busy s + (if accepted s (Step.line undef line) then 1 else 0) := by
  by_cases hrot : IsRotation line
  · rw [processLine_rotation undef line s hrot]
    unfold rotateCommand
    by_cases hd : (s.slot s.produceCommand).state = Command.done
    · simp only [accepted, hrot, hd, and_self, decide_True, if_true]
      exact busy_enqueue undef _ _ s hw hd
    · simp only [accepted, hrot, hd, and_false, decide_False, Bool.false_eq_true, if_false,
        add_zero]
      rw [enqueue_busy undef _ _ s hd]
  · have hacc : accepted s (Step.line undef line) = false := by simp [accepted, hrot]
    rw [hacc]
    simp only [Bool.false_eq_true, if_false, add_zero]
    rcases processLine_cases undef line s with e | e | ⟨m, e⟩ | e | ⟨h, _⟩
    · rw [e]
    · rw [e]; rfl
    · rw [e]; rfl
    · rw [e] at hr ⊢
      rw [busy_clear]
      symm
      apply busy_eq_zero_of_all_done
      intro i hi
      by_contra hne
      exact (released_false_iff _ _).1 hr i hi hne (by rw [clearCommands_slot]; rfl)
    · exact absurd h hrot

theorem busy_schedulerTick (now : Nat) (s : Controller) (hw : WellFormed s)
    (hr : released s (schedulerTick now s).1 = false) :
    busy (schedulerTick now s).1 = busy s := by
  have hc : s.consumeCommand < s.commands.length := by rw [hw.1]; exact hw.2.2
  have hn : nextConsume s < s.commands.length := by
    rw [hw.1]; exact nextConsume_lt s hw.2.2
  rw [released_false_iff] at hr
  revert hr
  unfold schedulerTick
  split_ifs with h1 h2 h3 h4 h5 h6
  · intro hr
    exfalso
    refine hr s.consumeCommand hc (by rw [h1]; decide) ?_
    simp [finishActive_state, hc]
  · intro _
    have := busy_set s (advanceActive s) s.consumeCommand
      { s.slot s.consumeCommand with
        numSteps := (advanceSteps (if (s.slot s.consumeCommand).quick then 2 else 1)
          (s.slot s.consumeCommand).numSteps s.eighth).1
        nextStepTime := wrapULong ((s.slot s.consumeCommand).nextStepTime +
          (s.slot s.consumeCommand).microstep) } hc rfl
    simp only [h1] at this
    exact Nat.add_right_cancel this
  · intro _; rfl
  · intro _; rfl
  · intro _
    have := busy_set s (promote now s) (nextConsume s)
      { s.slot (nextConsume s) with state := Command.active, nextStepTime := now } hn rfl
    simp only [h6, Command.pending, Command.active, Command.done] at this
    simpa using this
  · intro _; rfl
  · intro _; rfl

theorem busy_step (s : Controller) (st : Step) (hw : WellFormed s)
    (hr : released s (s.step st) = false) :
    busy (s.step st) = busy s + (if accepted s st then 1 else 0) := by
  cases st with
  | line undef text => exact busy_processLine undef text s hw hr
  | tick now =>
    simp only [Controller.step, accepted, Bool.false_eq_true, if_false, add_zero]
    exact busy_schedulerTick now s hw hr

theorem busy_run (steps : List Step) (s : Controller) (hw : WellFormed s)
    (hr : noRelease s steps = true) :
    busy (run s steps) = busy s + acceptedCount s steps := by
  induction steps generalizing s with
  | nil => rfl
  | cons st rest ih =>
    simp only [noRelease, Bool.and_eq_true, Bool.not_eq_true'] at hr
    have h1 := busy_step s st hw hr.1
    have h2 := ih (s.step st) (step_wellFormed s st hw) hr.2
    simp only [acceptedCount]
    show busy (run (s.step st) rest) = _
    rw [h2, h1]; omega

/-- C1: a rotation line (first character `l` or `r`) that finds the slot at `produceCommand`
not `Done` changes nothing: the controller state after the line (every queue slot, both
cursors, `numCommandsPending`, `freezeMode`, `eighth`) equals the state before, and the reply
is the queue-full message. This is in particular the case after `maxCommands` accepted
enqueues in a run in which no slot was released (no completion, no clear). -/
theorem queue_full_rejects_without_mutation (undef : Nat) (line : List Char) (s : Controller)
    (hline : IsRotation line)
    (hfull : (s.slot s.produceCommand).state ≠ Command.done ∨
      ∃ (s0 : Controller) (steps : List Step), WellFormed s0 ∧ noRelease s0 steps = true ∧
        acceptedCount s0 steps = maxCommands ∧ run s0 steps = s) :
    (processLine undef line s).1 = s ∧
      (processLine undef line s).2 =
        [Output.echo s.produceCommand (cstr line 0), Output.tooManyCommands] := by
  have hbusy : (s.slot s.produceCommand).state ≠ Command.done := by
    rcases hfull with h | ⟨s0, steps, hw, hr, hacc, rfl⟩
    · exact h
    · have hwf := run_wellFormed steps s0 hw
      have hb := busy_run steps s0 hw hr
      have hle := busy_le (run s0 steps)
      rw [hwf.1] at hle
      have hp : (run s0 steps).produceCommand < (run s0 steps).commands.length := by
        rw [hwf.1]; exact hwf.2.1
      apply slot_busy_of_full _ _ hp
      rw [hwf.1]; omega
  have h1 : processLine undef line s =
      ((rotateCommand undef line s).1,
        Output.echo s.produceCommand (cstr line 0) :: (rotateCommand undef line s).2) := by
    unfold processLine
    rcases hline with h | h <;> simp [h]
  rw [h1]
  unfold rotateCommand
  rw [enqueue_busy undef _ _ s hbusy]
  exact ⟨rfl, rfl⟩

/-- Witness for C1: after 24 lines `l` the line `l 5` is rejected. -/
theorem queue_full_rejects_without_mutation_witness :
    IsRotation ['l', ' ', '5'] ∧ WellFormed Controller.init ∧
    noRelease Controller.init (List.replicate maxCommands (Step.line 0 ['l'])) = true ∧
    acceptedCount Controller.init (List.replicate maxCommands (Step.line 0 ['l'])) = maxCommands ∧
    (processLine 0 ['l', ' ', '5'] fullQueue).1 = fullQueue ∧
    (processLine 0 ['l', ' ', '5'] fullQueue).2 =
      [Output.echo fullQueue.produceCommand (cstr ['l', ' ', '5'] 0), Output.tooManyCommands] :=
  ⟨by decide, init_wellFormed, by decide, by decide,
    queue_full_rejects_without_mutation 0 ['l', ' ', '5'] fullQueue (by decide)
      (Or.inr ⟨Controller.init, List.replicate maxCommands (Step.line 0 ['l']),
        init_wellFormed, by decide, by decide, rfl⟩)⟩

/-- C2: whatever the controller state before (also with an `Active` command in flight), a line
whose first character is `c` leaves `produceCommand = 0`, `consumeCommand = 0`,
`numCommandsPending = 0` and a queue of `maxCommands` slots that are all `Done`. -/
theorem clear_resets_queue (undef : Nat) (line : List Char) (s : Controller)
    (hline : charAt line 0 = 'c') :
    (processLine undef line s).1.produceCommand = 0 ∧
    (processLine undef line s).1.consumeCommand = 0 ∧
    (processLine undef line s).1.numCommandsPending = 0 ∧
    (processLine undef line s).1.commands.length = maxCommands ∧
    (∀ i, i < maxCommands → ((processLine undef line s).1.slot i).state = Command.done) ∧
    (∀ c ∈ (processLine undef line s).1.commands, c.state = Command.done) := by
  rw [processLine_clear undef line s hline]
  refine ⟨rfl, rfl, rfl, by simp [clearCommands], ?_, ?_⟩
  · intro i _
    rw [clearCommands_slot]; rfl
  · intro c hc
    simp only [clearCommands, List.mem_replicate] at hc
    rw [hc.2]; rfl

/-- Witness for C2: the line `c` while slot 0 is `Active` with steps left. -/
theorem clear_resets_queue_witness :
    charAt ['c'] 0 = 'c' ∧ (inFlight.slot 0).state = Command.active ∧
    (inFlight.slot 0).numSteps = 3 ∧
    (processLine 0 ['c'] inFlight).1.produceCommand = 0 ∧
    (processLine 0 ['c'] inFlight).1.consumeCommand = 0 ∧
    (processLine 0 ['c'] inFlight).1.numCommandsPending = 0 ∧
    (processLine 0 ['c'] inFlight).1.commands.length = maxCommands ∧
    (∀ i, i < maxCommands → ((processLine 0 ['c'] inFlight).1.slot i).state = Command.done) ∧
    (∀ c ∈ (processLine 0 ['c'] inFlight).1.commands, c.state = Command.done) :=
  ⟨by decide, by decide, by decide, clear_resets_queue 0 ['c'] inFlight (by decide)⟩

theorem clampedInterval_ge (undef : Nat) (d n : Int) : 1000 ≤ clampedInterval undef d n := by
  unfold clampedInterval
  split_ifs <;> omega

/-- C3: for every rotation line accepted into a `Done` slot (whatever the steps and the
duration, and whatever an undefined float conversion yields), the stored `microstep` is at
least 1000, `quick` is true exactly when the interval after the clamp to 1000 and before the
doubling is below 2000, and the stored `microstep` is the clamped interval doubled when
`quick` and the clamped interval itself otherwise. -/
theorem accepted_interval_clamped_and_doubled (undef : Nat) (line : List Char) (s : Controller)
    (hline : IsRotation line)
    (hin : s.produceCommand < s.commands.length)
    (hdone : (s.slot s.produceCommand).state = Command.done) :
    ((processLine undef line s).1.slot s.produceCommand).state = Command.pending ∧
    1000 ≤ ((processLine undef line s).1.slot s.produceCommand).microstep ∧
    1000 ≤ clampedInterval undef ((processLine undef line s).1.slot s.produceCommand).duration
      ((processLine undef line s).1.slot s.produceCommand).numSteps ∧
    (((processLine undef line s).1.slot s.produceCommand).quick = true ↔
      clampedInterval undef ((processLine undef line s).1.slot s.produceCommand).duration
        ((processLine undef line s).1.slot s.produceCommand).numSteps < 2000) ∧
    ((processLine undef line s).1.slot s.produceCommand).microstep =
      (if ((processLine undef line s).1.slot s.produceCommand).quick = true
       then 2 * clampedInterval undef ((processLine undef line s).1.slot s.produceCommand).duration
         ((processLine undef line s).1.slot s.produceCommand).numSteps
       else clampedInterval undef ((processLine undef line s).1.slot s.produceCommand).duration
         ((processLine undef line s).1.slot s.produceCommand).numSteps) := by
  rw [processLine_rotation undef line s hline]
  unfold rotateCommand
  simp only
  generalize (if charAt line 0 = 'r' then wrapLong (-(rotationValues line).1)
    else (rotationValues line).1) = v0
  generalize (rotationValues line).2 = v1
  rw [enqueue_slot undef v0 v1 s _ hdone, if_pos ⟨rfl, hin⟩]
  simp only
  have hge := clampedInterval_ge undef (wrapInt v1) v0
  by_cases hq : clampedInterval undef (wrapInt v1) v0 < 2000
  · simp only [hq, if_true, decide_True, true_iff, true_and]
    refine ⟨by unfold wrapULong; omega, hge, by unfold wrapULong; omega⟩
  · simp only [hq, if_false, decide_False, Bool.false_eq_true, true_and, false_iff,
      not_false_eq_true, and_true]
    exact ⟨hge, hge⟩

/-- Witness for C3: the line `l 1020 2` sent to the freshly set up controller. -/
theorem accepted_interval_clamped_and_doubled_witness :
    IsRotation ['l', ' ', '1', '0', '2', '0', ' ', '2'] ∧
    Controller.init.produceCommand < Controller.init.commands.length ∧
    (Controller.init.slot Controller.init.produceCommand).state = Command.done ∧
    ((processLine 0 ['l', ' ', '1', '0', '2', '0', ' ', '2'] Controller.init).1.slot 0).microstep
      = 3920 ∧
    ((processLine 0 ['l', ' ', '1', '0', '2', '0', ' ', '2'] Controller.init).1.slot 0).quick
      = true :=
  have h := accepted_interval_clamped_and_doubled 0 ['l', ' ', '1', '0', '2', '0', ' ', '2']
    Controller.init (by decide) (by decide) (by decide)
  ⟨by decide, by decide, by decide, by decide, h.2.2.2.1.2 (by decide)⟩

/-- C4: in every state reachable from the state after `setup()` by processed lines and
scheduler ticks, at most one queue slot is `Active` (two `Active` slots have the same index),
and an `Active` slot is the slot at `consumeCommand`; the queue keeps its `maxCommands` slots
and the cursor stays inside it. -/
theorem at_most_one_active (s : Controller) (h : Reachable s) :
    (∀ i j, (s.slot i).state = Command.active → (s.slot j).state = Command.active → i = j) ∧
    (∀ i, (s.slot i).state = Command.active → i = s.consumeCommand) ∧
    s.commands.length = maxCommands ∧ s.consumeCommand < maxCommands := by
  obtain ⟨steps, rfl⟩ := h
  have ha := run_activeAtConsume steps Controller.init init_activeAtConsume
  have hw := run_wellFormed steps Controller.init init_wellFormed
  refine ⟨?_, ha, hw.1, hw.2.2⟩
  intro i j hi hj
  rw [ha i hi, ha j hj]

/-- Witness for C4: the state with the command of line `l 5` in flight. -/
theorem at_most_one_active_witness :
    Reachable inFlight ∧ (inFlight.slot 0).state = Command.active ∧
    (∀ i j, (inFlight.slot i).state = Command.active →
      (inFlight.slot j).state = Command.active → i = j) ∧
    (∀ i, (inFlight.slot i).state = Command.active → i = inFlight.consumeCommand) :=
  have h := at_most_one_active inFlight ⟨_, rfl⟩
  ⟨⟨_, rfl⟩, by decide, h.1, h.2.1⟩

theorem advanceSteps_one (n : Int) (e : Nat) :
    advanceSteps 1 n e =
      if n < 0 then (n + 1, wrapU8 (e + 255))
      else if 0 < n then (n - 1, wrapU8 (e + 1)) else (n, e) := by
  simp only [advanceSteps]
  split_ifs <;> first | rfl | omega

theorem advanceSteps_two (n : Int) (e : Nat) :
    advanceSteps 2 n e = advanceSteps 1 (advanceSteps 1 n e).1 (advanceSteps 1 n e).2 := by
  simp only [advanceSteps]

theorem advanceSteps_abs (k : Nat) (n : Int) (e : Nat) (hk : k = 1 ∨ k = 2) (hn : n ≠ 0) :
    |(advanceSteps k n e).1| < |n| ∧ (0 < n → 0 ≤ (advanceSteps k n e).1) ∧
      (n < 0 → (advanceSteps k n e).1 ≤ 0) := by
  rcases hk with rfl | rfl
  · rw [advanceSteps_one]
    split_ifs with h1 h2
    · simp only; refine ⟨?_, ?_, ?_⟩ <;> (try intro _) <;> (try rw [abs_lt]) <;>
        (try rw [abs_of_neg h1]) <;> omega
    · simp only; refine ⟨?_, ?_, ?_⟩ <;> (try intro _) <;> (try rw [abs_lt]) <;>
        (try rw [abs_of_pos h2]) <;> omega
    · omega
  · rw [advanceSteps_two, advanceSteps_one, advanceSteps_one]
    rcases lt_trichotomy n 0 with h | h | h
    · rw [abs_of_neg h, abs_lt]
      simp only [h, if_true]
      split_ifs <;> simp only <;>
        exact ⟨⟨by omega, by omega⟩, fun hf => by omega, fun _ => by omega⟩
    · exact absurd h hn
    · rw [abs_of_pos h, abs_lt]
      have h' : ¬ n < 0 := by omega
      simp only [h', h, if_true, if_false]
      split_ifs <;> simp only <;>
        exact ⟨⟨by omega, by omega⟩, fun _ => by omega, fun hf => hf.elim⟩

/-- C5: on a tick on which the `Active` command with `numSteps != 0` advances (execution not
frozen, step due), the magnitude of `numSteps` strictly decreases and its sign does not flip
(a positive count stays `>= 0`, a negative one stays `<= 0`, also for a quick command with one
step left), and the command stays `Active` on that tick; and whenever a tick turns a slot that
was not `Done` into `Done`, that slot is the `Active` slot at `consumeCommand` and its
`numSteps` is exactly 0 before and after the tick. -/
theorem steps_decrease_and_done_at_zero (now : Nat) (s : Controller) :
    ((s.slot s.consumeCommand).state = Command.active →
      (s.slot s.consumeCommand).numSteps ≠ 0 →
      s.consumeCommand < s.commands.length →
      s.freezeMode ≠ freezeExec →
      (s.slot s.consumeCommand).nextStepTime ≤ now →
        |((schedulerTick now s).1.slot s.consumeCommand).numSteps| <
          |(s.slot s.consumeCommand).numSteps| ∧
        (0 < (s.slot s.consumeCommand).numSteps →
          0 ≤ ((schedulerTick now s).1.slot s.consumeCommand).numSteps) ∧
        ((s.slot s.consumeCommand).numSteps < 0 →
          ((schedulerTick now s).1.slot s.consumeCommand).numSteps ≤ 0) ∧
        ((schedulerTick now s).1.slot s.consumeCommand).state = Command.active) ∧
    (∀ i, (s.slot i).state ≠ Command.done →
      ((schedulerTick now s).1.slot i).state = Command.done →
        i = s.consumeCommand ∧ (s.slot i).state = Command.active ∧
        (s.slot i).numSteps = 0 ∧ ((schedulerTick now s).1.slot i).numSteps = 0) := by
  constructor
  · intro hact hne hin hfr hdue
    have hst : (schedulerTick now s).1 = advanceActive s := by
      unfold schedulerTick
      simp [hact, hne, hfr, hdue]
    rw [hst, advanceActive_slot, if_pos ⟨rfl, hin⟩]
    simp only
    have hk : (if (s.slot s.consumeCommand).quick = true then 2 else 1) = 1 ∨
        (if (s.slot s.consumeCommand).quick = true then 2 else 1) = 2 := by
      split_ifs
      · exact Or.inr rfl
      · exact Or.inl rfl
    have := advanceSteps_abs _ (s.slot s.consumeCommand).numSteps s.eighth hk hne
    exact ⟨this.1, this.2.1, this.2.2, hact⟩
  · intro i hnd hd
    revert hd
    unfold schedulerTick
    split_ifs with h1 h2 h3 h4 h5 h6
    · simp only [finishActive_slot]
      split_ifs with hc
      · intro _
        obtain ⟨rfl, _⟩ := hc
        exact ⟨rfl, h1, h2, h2⟩
      · intro hd; exact absurd hd hnd
    · simp only [advanceActive_state]
      intro hd; exact absurd hd hnd
    · intro hd; exact absurd hd hnd
    · intro hd; exact absurd hd hnd
    · simp only [promote_state]
      split_ifs with hc
      · intro hd; simp [Command.active, Command.done] at hd
      · intro hd; exact absurd hd hnd
    · intro hd; exact absurd hd hnd
    · intro hd; exact absurd hd hnd

/-- Witness for C5: a quick command with one step left takes its last step without
overshooting, and is set `Done` by the next tick, at `numSteps = 0`. -/
theorem steps_decrease_and_done_at_zero_witness :
    (lastStep.slot 0).numSteps = 1 ∧ (lastStep.slot 0).quick = true ∧
    lastStep.consumeCommand = 0 ∧
    ((schedulerTick 4007 lastStep).1.slot 0).numSteps = 0 ∧
    |((schedulerTick 4007 lastStep).1.slot lastStep.consumeCommand).numSteps| <
      |(lastStep.slot lastStep.consumeCommand).numSteps| ∧
    ((schedulerTick 4008 (schedulerTick 4007 lastStep).1).1.slot 0).state = Command.done ∧
    ((schedulerTick 4007 lastStep).1.slot 0).numSteps = 0 :=
  ⟨by decide, by decide, by decide, by decide,
    ((steps_decrease_and_done_at_zero 4007 lastStep).1 (by decide) (by decide) (by decide)
      (by decide) (by decide)).1,
    by decide,
    ((steps_decrease_and_done_at_zero 4008 (schedulerTick 4007 lastStep).1).2 0 (by decide)
      (by decide)).2.2.1⟩

/-- C6: with `freezeMode = freezeExec`, one scheduler tick at any clock value issues no drive
call, leaves `eighth`, `consumeCommand` and `numCommandsPending` unchanged, leaves `numSteps`
and `nextStepTime` of every slot unchanged, and leaves every `Pending` slot `Pending` while
making no slot `Active`; a rotation line that finds its target slot `Done` is still enqueued
as `Pending`, and `freezeMode` stays `freezeExec`. -/
theorem freeze_execution_stops_stepping (now : Nat) (s : Controller)
    (hf : s.freezeMode = freezeExec) :
    (∀ p, Output.drive p ∉ (schedulerTick now s).2) ∧
    (schedulerTick now s).1.eighth = s.eighth ∧
    (schedulerTick now s).1.consumeCommand = s.consumeCommand ∧
    (schedulerTick now s).1.numCommandsPending = s.numCommandsPending ∧
    (schedulerTick now s).1.freezeMode = freezeExec ∧
    (∀ i, ((schedulerTick now s).1.slot i).numSteps = (s.slot i).numSteps ∧
      ((schedulerTick now s).1.slot i).nextStepTime = (s.slot i).nextStepTime) ∧
    (∀ i, (s.slot i).state = Command.pending →
      ((schedulerTick now s).1.slot i).state = Command.pending) ∧
    (∀ i, ((schedulerTick now s).1.slot i).state = Command.active →
      (s.slot i).state = Command.active) ∧
    (∀ (undef : Nat) (line : List Char), IsRotation line →
      s.produceCommand < s.commands.length →
      (s.slot s.produceCommand).state = Command.done →
        ((processLine undef line s).1.slot s.produceCommand).state = Command.pending ∧
        (processLine undef line s).1.numCommandsPending = wrapU8 (s.numCommandsPending + 1) ∧
        (processLine undef line s).1.produceCommand = stepCommand s.produceCommand ∧
        (processLine undef line s).1.freezeMode = freezeExec) := by
  have hrot : ∀ (undef : Nat) (line : List Char), IsRotation line →
      s.produceCommand < s.commands.length →
      (s.slot s.produceCommand).state = Command.done →
        ((processLine undef line s).1.slot s.produceCommand).state = Command.pending ∧
        (processLine undef line s).1.numCommandsPending = wrapU8 (s.numCommandsPending + 1) ∧
        (processLine undef line s).1.produceCommand = stepCommand s.produceCommand ∧
        (processLine undef line s).1.freezeMode = freezeExec := by
    intro undef line hline hin hdone
    rw [processLine_rotation undef line s hline]
    unfold rotateCommand
    simp only
    refine ⟨?_, ?_, ?_, ?_⟩
    · rw [enqueue_state undef _ _ s _ hdone, if_pos ⟨rfl, hin⟩]
    · rw [enqueue_free undef _ _ s hdone]
    · rw [enqueue_free undef _ _ s hdone]
    · rw [enqueue_free undef _ _ s hdone]; exact hf
  by_cases h1 : (s.slot s.consumeCommand).state = Command.active
  · by_cases h2 : (s.slot s.consumeCommand).numSteps = 0
    · have ht : schedulerTick now s = (finishActive s, [Output.finished s.consumeCommand]) := by
        unfold schedulerTick; simp [h1, h2]
      rw [ht]
      refine ⟨by simp, rfl, rfl, rfl, hf, ?_, ?_, ?_, hrot⟩
      · intro i
        simp only [finishActive_slot]
        split_ifs with hc
        · obtain ⟨rfl, _⟩ := hc; exact ⟨rfl, rfl⟩
        · exact ⟨rfl, rfl⟩
      · intro i hi
        simp only [finishActive_state]
        rw [if_neg]
        · exact hi
        · rintro ⟨rfl, _⟩
          rw [h1] at hi; simp [Command.active, Command.pending] at hi
      · intro i
        simp only [finishActive_state]
        split_ifs with hc
        · intro h; simp [Command.active, Command.done] at h
        · exact id
    · have ht : schedulerTick now s = ({ s with executing := true }, []) := by
        unfold schedulerTick; simp [h1, h2, hf]
      rw [ht]
      exact ⟨by simp, rfl, rfl, rfl, hf, fun _ => ⟨rfl, rfl⟩, fun _ h => h, fun _ h => h, hrot⟩
  · have ht : schedulerTick now s = ({ s with executing := false }, []) := by
      unfold schedulerTick; simp [h1, hf]
    rw [ht]
    exact ⟨by simp, rfl, rfl, rfl, hf, fun _ => ⟨rfl, rfl⟩, fun _ h => h, fun _ h => h, hrot⟩

/-- Witness for C6: with execution frozen a tick leaves the `Active` slot 0 and the `Pending`
slot 1 as they are, and the line `l 3` is enqueued as `Pending` in slot 2. -/
theorem freeze_execution_stops_stepping_witness :
    frozen.freezeMode = freezeExec ∧ (frozen.slot 0).state = Command.active ∧
    (frozen.slot 1).state = Command.pending ∧
    (schedulerTick 5000 frozen).2 = [] ∧
    (schedulerTick 5000 frozen).1.eighth = frozen.eighth ∧
    ((schedulerTick 5000 frozen).1.slot 1).state = Command.pending ∧
    ((processLine 0 ['l', ' ', '3'] frozen).1.slot 2).state = Command.pending :=
  have h := freeze_execution_stops_stepping 5000 frozen (by decide)
  ⟨by decide, by decide, by decide, by decide, h.2.1, h.2.2.2.2.2.2.1 1 (by decide),
    (h.2.2.2.2.2.2.2.2 0 ['l', ' ', '3'] (by decide) (by decide) (by decide)).1⟩

/-- C7 (as the code behaves): a rotation line whose steps value is zero is not rejected. When
the target slot is `Done` it is enqueued like any other rotation: the slot gets `numSteps = 0`
and state `Pending` with a `microstep` of at least 1000, `produceCommand` advances modulo
`maxCommands`, `numCommandsPending` is incremented and the acknowledgment is sent. -/
theorem zero_steps_rotation_is_enqueued (undef : Nat) (line : List Char) (s : Controller)
    (hline : IsRotation line)
    (hzero : (rotationValues line).1 = 0)
    (hin : s.produceCommand < s.commands.length)
    (hdone : (s.slot s.produceCommand).state = Command.done) :
    ((processLine undef line s).1.slot s.produceCommand).numSteps = 0 ∧
    ((processLine undef line s).1.slot s.produceCommand).state = Command.pending ∧
    1000 ≤ ((processLine undef line s).1.slot s.produceCommand).microstep ∧
    (processLine undef line s).1.produceCommand = stepCommand s.produceCommand ∧
    (processLine undef line s).1.numCommandsPending = wrapU8 (s.numCommandsPending + 1) ∧
    (∃ m, Output.accepted s.produceCommand 0 m ∈ (processLine undef line s).2) := by
  have hv : (if charAt line 0 = 'r' then wrapLong (-(rotationValues line).1)
      else (rotationValues line).1) = 0 := by
    rw [hzero]; split_ifs <;> rfl
  have hout : (processLine undef line s).2 =
      Output.echo s.produceCommand (cstr line 0) :: (rotateCommand undef line s).2 := by
    unfold processLine
    rcases hline with h | h <;> simp [h]
  rw [hout, processLine_rotation undef line s hline]
  unfold rotateCommand
  simp only
  rw [hv]
  refine ⟨?_, ?_, ?_, ?_, ?_, ?_⟩
  · rw [enqueue_slot undef _ _ s _ hdone, if_pos ⟨rfl, hin⟩]
  · rw [enqueue_state undef _ _ s _ hdone, if_pos ⟨rfl, hin⟩]
  · rw [enqueue_slot undef _ _ s _ hdone, if_pos ⟨rfl, hin⟩]
    simp only
    have hge := clampedInterval_ge undef (wrapInt (rotationValues line).2) 0
    split_ifs
    · unfold wrapULong; omega
    · exact hge
  · rw [enqueue_free undef _ _ s hdone]
  · rw [enqueue_free undef _ _ s hdone]
  · unfold enqueue
    simp [hdone]

/-- Witness for C7: the line `l 0` sent to the freshly set up controller. -/
theorem zero_steps_rotation_is_enqueued_witness :
    IsRotation ['l', ' ', '0'] ∧ (rotationValues ['l', ' ', '0']).1 = 0 ∧
    ((processLine 0 ['l', ' ', '0'] Controller.init).1.slot 0).numSteps = 0 ∧
    ((processLine 0 ['l', ' ', '0'] Controller.init).1.slot 0).state = Command.pending ∧
    (processLine 0 ['l', ' ', '0'] Controller.init).1.produceCommand = 1 :=
  have h := zero_steps_rotation_is_enqueued 0 ['l', ' ', '0'] Controller.init
    (by decide) (by decide) (by decide) (by decide)
  ⟨by decide, by decide, h.1, h.2.1, h.2.2.2.1⟩

/-- C7 (counterexample to the claim as stated): the line `l 0`, whose steps value is zero, sent
to the freshly set up controller populates slot 0 and changes `produceCommand` and
`numCommandsPending`. -/
theorem zero_steps_not_rejected :
    (rotationValues ['l', ' ', '0']).1 = 0 ∧
    ¬ (((processLine 0 ['l', ' ', '0'] Controller.init).1.slot 0).state = Command.done ∧
       (processLine 0 ['l', ' ', '0'] Controller.init).1.produceCommand =
         Controller.init.produceCommand ∧
       (processLine 0 ['l', ' ', '0'] Controller.init).1.numCommandsPending =
         Controller.init.numCommandsPending) := by
  decide

/-- C8 (the code at the failing inputs): the scheduler compares `now >= nextStepTime` directly.
After `nextStepTime` has wrapped past `2^32` to 199704 while the clock still reads 4294967100,
the command steps again 100 microseconds after its previous step although the modular
difference says the step is not due; and when the clock has wrapped to 100 while
`nextStepTime` is still 4294967000, the command does not step although the modular difference
(396) says it is due. -/
theorem step_due_comparison_not_wrap_safe :
    ((steppedBeforeWrap.slot 0).state = Command.active ∧
      (steppedBeforeWrap.slot 0).numSteps = 4 ∧
      (steppedBeforeWrap.slot 0).nextStepTime = 199704 ∧
      ¬ wrapSafeDue 4294967100 199704 ∧
      (schedulerTick 4294967100 steppedBeforeWrap).2 = [Output.drive 1] ∧
      ((schedulerTick 4294967100 steppedBeforeWrap).1.slot 0).numSteps = 3) ∧
    ((startedBeforeWrap.slot 0).state = Command.active ∧
      (startedBeforeWrap.slot 0).numSteps = 5 ∧
      (startedBeforeWrap.slot 0).nextStepTime = 4294967000 ∧
      startedBeforeWrap.freezeMode = freezeNone ∧
      wrapSafeDue 100 4294967000 ∧
      (schedulerTick 100 startedBeforeWrap).2 = [] ∧
      ((schedulerTick 100 startedBeforeWrap).1.slot 0).numSteps = 5) := by
  decide

theorem schedulerTick_due (now : Nat) (s : Controller)
    (hact : (s.slot s.consumeCommand).state = Command.active)
    (hne : (s.slot s.consumeCommand).numSteps ≠ 0)
    (hfr : s.freezeMode ≠ freezeExec)
    (hdue : (s.slot s.consumeCommand).nextStepTime ≤ now) :
    schedulerTick now s = (advanceActive s, [Output.drive (s.eighth % 8)]) := by
  unfold schedulerTick
  simp [hact, hne, hfr, hdue]

theorem schedulerTick_not_due (now : Nat) (s : Controller)
    (hact : (s.slot s.consumeCommand).state = Command.active)
    (hne : (s.slot s.consumeCommand).numSteps ≠ 0)
    (hnd : now < (s.slot s.consumeCommand).nextStepTime) :
    schedulerTick now s = ({ s with executing := true }, []) := by
  unfold schedulerTick
  have : ¬ (s.slot s.consumeCommand).nextStepTime ≤ now := by omega
  simp [hact, hne, this]

theorem space_ne_nul : ' ' ≠ NUL := by decide

theorem strchrFrom_none (l : List Char) (i : Nat)
    (h : ' ' ∉ l.takeWhile (fun c => c != NUL)) : strchrFrom l i ' ' = none := by
  induction l generalizing i with
  | nil => rfl
  | cons x xs ih =>
    unfold strchrFrom
    by_cases hx : x = NUL
    · subst hx
      have : ¬ NUL = ' ' := fun h => space_ne_nul h.symm
      simp [this]
    · have hx' : (x != NUL) = true := by simpa using hx
      rw [List.takeWhile_cons, if_pos hx'] at h
      simp only [List.mem_cons, not_or] at h
      have h1 : ¬ x = ' ' := fun e => h.1 e.symm
      simp only [h1, hx, if_false]
      exact ih (i + 1) h.2

theorem strchrFrom_some (l : List Char) (i : Nat) (pre post : List Char)
    (h : l.takeWhile (fun c => c != NUL) = pre ++ ' ' :: post) (hpre : ' ' ∉ pre) :
    strchrFrom l i ' ' = some (i + pre.length) := by
  induction l generalizing i pre with
  | nil => simp at h
  | cons x xs ih =>
    unfold strchrFrom
    by_cases hx : x = NUL
    · subst hx
      simp [List.takeWhile_cons] at h
    · have hx' : (x != NUL) = true := by simpa using hx
      rw [List.takeWhile_cons, if_pos hx'] at h
      cases pre with
      | nil =>
        simp only [List.nil_append, List.cons.injEq] at h
        simp [h.1]
      | cons p ps =>
        simp only [List.cons_append, List.cons.injEq] at h
        simp only [List.mem_cons, not_or] at hpre
        have h1 : ¬ x = ' ' := by rw [h.1]; exact fun e => hpre.1 e.symm
        simp only [h1, hx, if_false]
        rw [ih (i + 1) ps h.2 hpre.2]
        simp only [List.length_cons]
        congr 1; omega

theorem charAt_after_takeWhile (l : List Char) (pre post : List Char)
    (h : l.takeWhile (fun c => c != NUL) = pre ++ post) :
    charAt l pre.length = post.headD NUL := by
  induction l generalizing pre with
  | nil =>
    simp only [List.takeWhile_nil] at h
    have h1 : pre = [] := by
      cases pre with
      | nil => rfl
      | cons a b => simp at h
    have h2 : post = [] := by
      subst h1
      simpa using h.symm
    subst h1 h2
    rfl
  | cons x xs ih =>
    by_cases hx : x = NUL
    · subst hx
      have : List.takeWhile (fun c => c != NUL) (NUL :: xs) = [] := by
        simp [List.takeWhile_cons]
      rw [this] at h
      have h1 : pre = [] := by
        cases pre with
        | nil => rfl
        | cons a b => simp at h
      have h2 : post = [] := by
        subst h1
        simpa using h.symm
      subst h1 h2
      rfl
    · have hx' : (x != NUL) = true := by simpa using hx
      rw [List.takeWhile_cons, if_pos hx'] at h
      cases pre with
      | nil =>
        simp only [List.nil_append] at h
        rw [← h]
        rfl
      | cons p ps =>
        simp only [List.cons_append, List.cons.injEq] at h
        have := ih ps h.2
        simpa [charAt] using this

theorem cstr_zero (line : List Char) : cstr line 0 = line.takeWhile (fun c => c != NUL) := rfl

theorem cstr_of_nul_free (line : List Char) (h : NUL ∉ line) : cstr line 0 = line := by
  rw [cstr_zero, List.takeWhile_eq_self_iff]
  intro c hc
  have : c ≠ NUL := fun e => h (e ▸ hc)
  simpa using this

/-- C9: for a line whose first character is `f` (its text being the characters before any
NUL): if the text has no space, the controller state is unchanged; if it has one, the
character right after the first space sets `freezeMode` to `freezeNone` for `n`, `freezeExec`
for `e`, `freezeComm` for `c`, and any other character (or none) leaves `freezeMode` as it
was. In every case the queue, both cursors, the pending count and `eighth` are unchanged. A
line without NUL is its own text. -/
theorem freeze_line_sets_mode_only (undef : Nat) (line : List Char) (s : Controller)
    (hline : charAt line 0 = 'f') :
    (' ' ∉ cstr line 0 → (processLine undef line s).1 = s) ∧
    (∀ pre post, cstr line 0 = pre ++ ' ' :: post → ' ' ∉ pre →
      (processLine undef line s).1 =
        { s with freezeMode :=
            if post.head? = some 'n' then freezeNone
            else if post.head? = some 'e' then freezeExec
            else if post.head? = some 'c' then freezeComm
            else s.freezeMode }) ∧
    ((processLine undef line s).1.commands = s.commands ∧
      (processLine undef line s).1.produceCommand = s.produceCommand ∧
      (processLine undef line s).1.consumeCommand = s.consumeCommand ∧
      (processLine undef line s).1.numCommandsPending = s.numCommandsPending ∧
      (processLine undef line s).1.eighth = s.eighth) ∧
    (NUL ∉ line → cstr line 0 = line) := by
  rw [processLine_freeze undef line s hline]
  refine ⟨?_, ?_, ?_, cstr_of_nul_free line⟩
  · intro h
    unfold freezeCommand strchr
    rw [List.drop_zero, strchrFrom_none line 0 h]
  · intro pre post h hpre
    have hc : charAt line (pre.length + 1) = post.headD NUL := by
      have := charAt_after_takeWhile line (pre ++ [' ']) post (by rw [← cstr_zero, h]; simp)
      simpa using this
    unfold freezeCommand strchr
    rw [List.drop_zero, strchrFrom_some line 0 pre post h hpre]
    simp only [Nat.zero_add, hc]
    cases post with
    | nil =>
      have e1 : ¬ NUL = 'n' := by decide
      have e2 : ¬ NUL = 'e' := by decide
      have e3 : ¬ NUL = 'c' := by decide
      simp [e1, e2, e3]
    | cons a rest =>
      simp only [List.headD_cons, List.head?_cons, Option.some.injEq]
      split_ifs <;> rfl
  · obtain ⟨m, hm⟩ := freezeCommand_cases line s
    rw [hm]
    exact ⟨rfl, rfl, rfl, rfl, rfl⟩

/-- Witness for C9: `f e` freezes execution, `f x` and `f` change nothing. -/
theorem freeze_line_sets_mode_only_witness :
    charAt ['f', ' ', 'e'] 0 = 'f' ∧
    (processLine 0 ['f', ' ', 'e'] Controller.init).1 =
      { Controller.init with freezeMode := freezeExec } ∧
    (processLine 0 ['f', ' ', 'x'] Controller.init).1 = Controller.init ∧
    (processLine 0 ['f'] Controller.init).1 = Controller.init :=
  ⟨by decide,
    (freeze_line_sets_mode_only 0 ['f', ' ', 'e'] Controller.init (by decide)).2.1
      ['f'] ['e'] (by decide) (by decide),
    (freeze_line_sets_mode_only 0 ['f', ' ', 'x'] Controller.init (by decide)).2.1
      ['f'] ['x'] (by decide) (by decide),
    (freeze_line_sets_mode_only 0 ['f'] Controller.init (by decide)).1 (by decide)⟩

theorem digitChar_facts : ∀ d, d < 10 →
    (Nat.digitChar d).isDigit = true ∧ (Nat.digitChar d).toNat - 48 = d := by
  decide

theorem isDigit_facts (c : Char) (h : c.isDigit = true) :
    c ≠ ' ' ∧ c ≠ NUL ∧ c ≠ 'd' ∧ c ≠ '-' ∧ c ≠ '+' ∧ isspace c = false := by
  refine ⟨?_, ?_, ?_, ?_, ?_, ?_⟩
  · rintro rfl; exact absurd h (by decide)
  · rintro rfl; exact absurd h (by decide)
  · rintro rfl; exact absurd h (by decide)
  · rintro rfl; exact absurd h (by decide)
  · rintro rfl; exact absurd h (by decide)
  · by_contra hs
    simp only [isspace, Bool.or_eq_true, decide_eq_true_eq, Bool.not_eq_false] at hs
    rcases hs with ((((hs | hs) | hs) | hs) | hs) | hs <;>
      (subst hs; exact absurd h (by decide))

theorem numeralAux_spec (fuel n : Nat) (h : n < fuel) :
    (∀ c ∈ numeralAux fuel n, c.isDigit = true) ∧
    (∃ ini d, d < 10 ∧ numeralAux fuel n = ini ++ [Nat.digitChar d]) ∧
    (∀ rest, atolDigits (numeralAux fuel n ++ rest) 0 = atolDigits rest n) := by
  induction fuel generalizing n with
  | zero => omega
  | succ fuel ih =>
    unfold numeralAux
    by_cases h10 : n < 10
    · simp only [h10, if_true]
      have hf := digitChar_facts n h10
      refine ⟨?_, ⟨[], n, h10, rfl⟩, ?_⟩
      · intro c hc
        simp only [List.mem_singleton] at hc
        rw [hc]; exact hf.1
      · intro rest
        simp only [List.singleton_append, atolDigits, hf.1, if_true, hf.2]
        simp
    · simp only [h10, if_false]
      have hlt : n / 10 < fuel := by omega
      obtain ⟨h1, _, h3⟩ := ih (n / 10) hlt
      have hm : n % 10 < 10 := Nat.mod_lt _ (by decide)
      have hf := digitChar_facts (n % 10) hm
      refine ⟨?_, ⟨_, n % 10, hm, rfl⟩, ?_⟩
      · intro c hc
        simp only [List.mem_append, List.mem_singleton] at hc
        rcases hc with hc | hc
        · exact h1 c hc
        · rw [hc]; exact hf.1
      · intro rest
        rw [List.append_assoc, h3]
        simp only [List.singleton_append, atolDigits, hf.1, if_true, hf.2]
        congr 1
        omega

theorem numeral_spec (n : Nat) :
    (∀ c ∈ numeral n, c.isDigit = true) ∧
    (∃ ini d, d < 10 ∧ numeral n = ini ++ [Nat.digitChar d]) ∧
    atolDigits (numeral n) 0 = n := by
  obtain ⟨h1, h2, h3⟩ := numeralAux_spec (n + 1) n (Nat.lt_succ_self n)
  refine ⟨h1, h2, ?_⟩
  have := h3 []
  simpa [numeral, atolDigits] using this

theorem wrapLong_of_range (x : Int) (h1 : -2147483648 ≤ x) (h2 : x < 2147483648) :
    wrapLong x = x := by
  unfold wrapLong
  omega

theorem atol_numeral (n : Nat) (h : n < 2147483648) : atol (numeral n) = n := by
  obtain ⟨h1, ⟨ini, d, hd, h2⟩, h3⟩ := numeral_spec n
  have hne : numeral n ≠ [] := by rw [h2]; simp
  obtain ⟨c, cs, hcs⟩ := List.exists_cons_of_ne_nil hne
  have hc : c.isDigit = true := h1 c (by rw [hcs]; exact List.mem_cons_self _ _)
  obtain ⟨_, _, _, hm, hp, hs⟩ := isDigit_facts c hc
  unfold atol
  rw [hcs, List.dropWhile_cons]
  simp only [hs, Bool.false_eq_true, if_false, hm, hp]
  rw [← hcs, h3]
  exact wrapLong_of_range _ (by omega) (by omega)

theorem atol_intNumeral (n : Int) (h1 : -2147483648 < n) (h2 : n < 2147483648) :
    atol (intNumeral n) = n := by
  unfold intNumeral
  split_ifs with hneg
  · have h3 := (numeral_spec n.natAbs).2.2
    unfold atol
    have hs : isspace '-' = false := by decide
    rw [List.dropWhile_cons]
    simp only [hs, Bool.false_eq_true, if_false, if_true, h3]
    rw [wrapLong_of_range _ (by omega) (by omega)]
    omega
  · rw [atol_numeral _ (by omega)]
    omega

theorem takeWhile_drop_of_append (l pre post : List Char)
    (h : l.takeWhile (fun c => c != NUL) = pre ++ post) :
    (l.drop pre.length).takeWhile (fun c => c != NUL) = post := by
  induction pre generalizing l with
  | nil => simpa using h
  | cons p ps ih =>
    cases l with
    | nil => simp at h
    | cons x xs =>
      by_cases hx : (x != NUL) = true
      · rw [List.takeWhile_cons, if_pos hx] at h
        simp only [List.cons_append, List.cons.injEq] at h
        simpa using ih xs h.2
      · rw [List.takeWhile_cons, if_neg hx] at h
        simp at h

theorem rotationValues_no_space (line : List Char) (h : ' ' ∉ cstr line 0) :
    rotationValues line = (1020, 0) := by
  unfold rotationValues strchr
  rw [List.drop_zero, strchrFrom_none line 0 h]

theorem rotationValues_one_token (line pre tok : List Char)
    (h : cstr line 0 = pre ++ ' ' :: tok) (hpre : ' ' ∉ pre) (htok : ' ' ∉ tok) :
    rotationValues line =
      ((parseToken line line.length (pre.length + 1)).2.1, 0) := by
  have hpos : (parseToken line line.length (pre.length + 1)).2.2 = none := by
    unfold parseToken
    simp only
    unfold strchr
    apply strchrFrom_none
    have := takeWhile_drop_of_append line (pre ++ [' ']) tok (by rw [← cstr_zero, h]; simp)
    rw [List.length_append, List.length_singleton] at this
    rw [this]
    exact htok
  unfold rotationValues strchr
  rw [List.drop_zero, strchrFrom_some line 0 pre tok h hpre]
  simp only [Nat.zero_add]
  unfold tokenLoop
  simp only [hpos, if_true]

theorem parseToken_plain (c0 : Char) (ini : List Char) (last : Char)
    (hsp : ∀ c ∈ ini ++ [last], c ≠ ' ' ∧ c ≠ NUL) (hlast : last ≠ 'd') :
    (parseToken (c0 :: ' ' :: (ini ++ [last])) (c0 :: ' ' :: (ini ++ [last])).length 2).2.1 =
      atol (ini ++ [last]) := by
  have hpos : strchr (c0 :: ' ' :: (ini ++ [last])) 2 ' ' = none := by
    unfold strchr
    apply strchrFrom_none
    intro hmem
    have := (List.takeWhile_sublist _).subset hmem
    simp only [List.drop_succ_cons, List.drop_zero] at this
    exact (hsp _ this).1 rfl
  have hch : charAt (c0 :: ' ' :: (ini ++ [last]))
      ((c0 :: ' ' :: (ini ++ [last])).length - 1) = last := by
    have e : (c0 :: ' ' :: (ini ++ [last])).length - 1 = (c0 :: ' ' :: ini).length := by
      simp
    rw [e]
    have e2 : c0 :: ' ' :: (ini ++ [last]) = (c0 :: ' ' :: ini) ++ [last] := by simp
    rw [e2]
    unfold charAt
    rw [List.getD_eq_getElem?_getD, List.getElem?_append_right (le_refl _)]
    simp
  unfold parseToken
  simp only [hpos, Option.getD_none, hch, hlast, decide_False, Bool.false_eq_true, if_false]
  rw [List.set_eq_of_length_le (le_refl _)]
  simp

/-- C10 (as the code behaves): for a rotation line accepted into a `Done` target slot, (1) when
the text of the line has no space, the stored `numSteps` is 1020 for `l` and -1020 for `r` and
the stored `duration` is 0; (2) when the text has no second space (the duration token is
omitted), the stored `duration` is 0; (3) when the line is the letter, one space and the
decimal numeral of an integer `n` with `-2^31 < n < 2^31`, the stored `numSteps` is `n` for
`l` and `-n` for `r`. -/
theorem rotation_defaults_and_numeral (undef : Nat) (line : List Char) (s : Controller)
    (hline : IsRotation line)
    (hin : s.produceCommand < s.commands.length)
    (hdone : (s.slot s.produceCommand).state = Command.done) :
    ((processLine undef line s).1.slot s.produceCommand).state = Command.pending ∧
    (' ' ∉ cstr line 0 →
      ((processLine undef line s).1.slot s.produceCommand).numSteps =
        (if charAt line 0 = 'r' then -1020 else 1020) ∧
      ((processLine undef line s).1.slot s.produceCommand).duration = 0) ∧
    (∀ pre tok, cstr line 0 = pre ++ ' ' :: tok → ' ' ∉ pre → ' ' ∉ tok →
      ((processLine undef line s).1.slot s.produceCommand).duration = 0) ∧
    (∀ (c0 : Char) (n : Int), line = c0 :: ' ' :: intNumeral n →
      -2147483648 < n → n < 2147483648 →
      ((processLine undef line s).1.slot s.produceCommand).numSteps =
        (if c0 = 'r' then -n else n)) := by
  have hslot : (processLine undef line s).1.slot s.produceCommand =
      { s.slot s.produceCommand with
        numSteps := if charAt line 0 = 'r' then wrapLong (-(rotationValues line).1)
          else (rotationValues line).1
        duration := wrapInt (rotationValues line).2
        microstep := ((processLine undef line s).1.slot s.produceCommand).microstep
        quick := ((processLine undef line s).1.slot s.produceCommand).quick
        state := Command.pending } := by
    rw [processLine_rotation undef line s hline]
    unfold rotateCommand
    simp only
    rw [enqueue_slot undef _ _ s _ hdone, if_pos ⟨rfl, hin⟩]
  rw [hslot]
  simp only
  refine ⟨trivial, ?_, ?_, ?_⟩
  · intro h
    rw [rotationValues_no_space line h]
    refine ⟨?_, by decide⟩
    split_ifs <;> decide
  · intro pre tok h hpre htok
    rw [rotationValues_one_token line pre tok h hpre htok]
    rfl
  · intro c0 n hl hlo hhi
    have hc0 : charAt line 0 = c0 := by rw [hl]; rfl
    have hc0' : c0 = 'l' ∨ c0 = 'r' := by rw [← hc0]; exact hline
    -- the token is a numeral: no space, no NUL, last character a digit
    have hdig : ∀ c ∈ intNumeral n, c ≠ ' ' ∧ c ≠ NUL := by
      intro c hc
      unfold intNumeral at hc
      split_ifs at hc
      · simp only [List.mem_cons] at hc
        rcases hc with hc | hc
        · rw [hc]; decide
        · have := isDigit_facts c ((numeral_spec _).1 c hc)
          exact ⟨this.1, this.2.1⟩
      · have := isDigit_facts c ((numeral_spec _).1 c hc)
        exact ⟨this.1, this.2.1⟩
    obtain ⟨ini, d, hd, hnum⟩ := (numeral_spec n.natAbs).2.1
    have hshape : ∃ ini', intNumeral n = ini' ++ [Nat.digitChar d] := by
      unfold intNumeral
      split_ifs
      · exact ⟨'-' :: ini, by rw [hnum]; rfl⟩
      · exact ⟨ini, hnum⟩
    obtain ⟨ini', hshape⟩ := hshape
    have hlast : Nat.digitChar d ≠ 'd' := (isDigit_facts _ (digitChar_facts d hd).1).2.2.1
    have hcstr : cstr line 0 = [c0] ++ ' ' :: intNumeral n := by
      rw [cstr_of_nul_free line, hl]
      · rfl
      · rw [hl]
        intro hmem
        simp only [List.mem_cons] at hmem
        rcases hmem with hmem | hmem | hmem
        · rcases hc0' with e | e <;> (rw [e] at hmem; exact absurd hmem (by decide))
        · exact absurd hmem (by decide)
        · exact (hdig _ hmem).2 rfl
    have hv : rotationValues line = (n, 0) := by
      rw [rotationValues_one_token line [c0] (intNumeral n) hcstr
        (by rcases hc0' with e | e <;> (rw [e]; decide))
        (fun hmem => (hdig _ hmem).1 rfl)]
      rw [hl, hshape]
      have := parseToken_plain c0 ini' (Nat.digitChar d) (by rw [← hshape]; exact hdig) hlast
      simp only [List.length_singleton] at this ⊢
      rw [this, ← hshape, atol_intNumeral n hlo hhi]
    rw [hv, hc0]
    split_ifs
    · exact wrapLong_of_range _ (by omega) (by omega)
    · rfl

/-- Witness for C10: the lines `r 90` and `l` sent to the freshly set up controller. -/
theorem rotation_defaults_and_numeral_witness :
    IsRotation ['r', ' ', '9', '0'] ∧ IsRotation ['l'] ∧
    ['r', ' ', '9', '0'] = 'r' :: ' ' :: intNumeral 90 ∧
    ((processLine 0 ['r', ' ', '9', '0'] Controller.init).1.slot 0).numSteps = -90 ∧
    ((processLine 0 ['r', ' ', '9', '0'] Controller.init).1.slot 0).duration = 0 ∧
    ((processLine 0 ['l'] Controller.init).1.slot 0).numSteps = 1020 :=
  have h := rotation_defaults_and_numeral 0 ['r', ' ', '9', '0'] Controller.init
    (by decide) (by decide) (by decide)
  have h' := rotation_defaults_and_numeral 0 ['l'] Controller.init
    (by decide) (by decide) (by decide)
  ⟨by decide, by decide, by decide,
    h.2.2.2 'r' 90 (by decide) (by decide) (by decide),
    h.2.2.1 ['r'] ['9', '0'] (by decide) (by decide) (by decide),
    (h'.2.1 (by decide)).1⟩

/-- C10 (counterexample to the claim as stated): the line made of `l` and one space is
accepted into slot 0 of the freshly set up controller with `numSteps = 0`, not 1020; and the
line `l 3000000000` does not store 3000000000, which no 32-bit `long` can hold. -/
theorem default_steps_lost_after_space :
    IsRotation ['l', ' '] ∧
    ((processLine 0 ['l', ' '] Controller.init).1.slot 0).state = Command.pending ∧
    ((processLine 0 ['l', ' '] Controller.init).1.slot 0).numSteps = 0 ∧
    ((processLine 0 ['l', ' '] Controller.init).1.slot 0).numSteps ≠ 1020 ∧
    ((processLine 0 ['l', ' ', ' ', ' '] Controller.init).1.slot 0).numSteps = 0 ∧
    ((processLine 0 ('l' :: ' ' :: intNumeral 3000000000) Controller.init).1.slot 0).state =
      Command.pending ∧
    ((processLine 0 ('l' :: ' ' :: intNumeral 3000000000) Controller.init).1.slot 0).numSteps ≠
      3000000000 := by
  decide

theorem rotationValues_fst (line : List Char) (sp : Nat) (h : strchr line 0 ' ' = some sp) :
    (rotationValues line).1 = (parseToken line line.length (sp + 1)).2.1 := by
  unfold rotationValues
  rw [h]
  simp only [tokenLoop, if_true]
  split
  · rfl
  · simp only [Nat.zero_add, Nat.one_ne_zero, if_false]
    split <;> rfl

theorem strchrFrom_found (pre rest : List Char) (i : Nat)
    (hpre : ∀ c ∈ pre, c ≠ ' ' ∧ c ≠ NUL) :
    strchrFrom (pre ++ ' ' :: rest) i ' ' = some (i + pre.length) := by
  induction pre generalizing i with
  | nil => simp [strchrFrom]
  | cons p ps ih =>
    have hp := hpre p (List.mem_cons_self _ _)
    rw [List.cons_append]
    unfold strchrFrom
    simp only [hp.1, hp.2, if_false]
    rw [ih (i + 1) (fun c hc => hpre c (List.mem_cons_of_mem _ hc))]
    simp only [List.length_cons]
    congr 1; omega

theorem strchrFrom_absent (l : List Char) (i : Nat) (h : ∀ c ∈ l, c ≠ ' ') :
    strchrFrom l i ' ' = none := by
  apply strchrFrom_none
  intro hmem
  exact h _ ((List.takeWhile_sublist _).subset hmem) rfl

theorem intNumeral_chars (g : Int) : ∀ c ∈ intNumeral g, c ≠ ' ' ∧ c ≠ NUL ∧ c ≠ 'd' := by
  intro c hc
  unfold intNumeral at hc
  split_ifs at hc
  · simp only [List.mem_cons] at hc
    rcases hc with hc | hc
    · rw [hc]; decide
    · have := isDigit_facts c ((numeral_spec _).1 c hc)
      exact ⟨this.1, this.2.1, this.2.2.1⟩
  · have := isDigit_facts c ((numeral_spec _).1 c hc)
    exact ⟨this.1, this.2.1, this.2.2.1⟩

theorem atol_numeral_nul (n : Nat) (rest : List Char) (h : n < 2147483648) :
    atol (numeral n ++ NUL :: rest) = n := by
  obtain ⟨h1, ⟨ini, d, hd, h2⟩, _⟩ := numeral_spec n
  have h3 := (numeralAux_spec (n + 1) n (Nat.lt_succ_self n)).2.2 (NUL :: rest)
  have hne : numeral n ≠ [] := by rw [h2]; simp
  obtain ⟨c, cs, hcs⟩ := List.exists_cons_of_ne_nil hne
  have hc : c.isDigit = true := h1 c (by rw [hcs]; exact List.mem_cons_self _ _)
  obtain ⟨_, _, _, hm, hp, hs⟩ := isDigit_facts c hc
  have hnul : NUL.isDigit = false := by decide
  have h4 : atolDigits (numeral n ++ NUL :: rest) 0 = n := by
    unfold numeral
    rw [h3]
    simp [atolDigits, hnul]
  unfold atol
  rw [hcs, List.cons_append, List.dropWhile_cons]
  simp only [hs, Bool.false_eq_true, if_false, hm, hp]
  rw [← List.cons_append, ← hcs, h4]
  exact wrapLong_of_range _ (by omega) (by omega)

theorem atol_intNumeral_nul (g : Int) (rest : List Char)
    (h1 : -2147483648 < g) (h2 : g < 2147483648) :
    atol (intNumeral g ++ NUL :: rest) = g := by
  unfold intNumeral
  split_ifs with hneg
  · have h3 := (numeralAux_spec (g.natAbs + 1) g.natAbs (Nat.lt_succ_self _)).2.2 (NUL :: rest)
    have hnul : NUL.isDigit = false := by decide
    have h4 : atolDigits (numeral g.natAbs ++ NUL :: rest) 0 = g.natAbs := by
      unfold numeral
      rw [h3]
      simp [atolDigits, hnul]
    unfold atol
    have hs : isspace '-' = false := by decide
    rw [List.cons_append, List.dropWhile_cons]
    simp only [hs, Bool.false_eq_true, if_false, if_true, h4]
    rw [wrapLong_of_range _ (by omega) (by omega)]
    omega
  · rw [atol_numeral_nul _ _ (by omega)]
    omega

theorem parseToken_degrees (c0 : Char) (g : Int) (tail : List Char)
    (htail : tail = [] ∨ ∃ rest, tail = ' ' :: rest)
    (h1 : -2147483648 < g) (h2 : g < 2147483648) :
    (parseToken (c0 :: ' ' :: (intNumeral g ++ 'd' :: tail))
      (c0 :: ' ' :: (intNumeral g ++ 'd' :: tail)).length 2).2.1 =
      Int.tdiv (wrapLong (g * stepsPerRevolution)) 360 := by
  have hchars := intNumeral_chars g
  have hpre : ∀ c ∈ intNumeral g ++ ['d'], c ≠ ' ' ∧ c ≠ NUL := by
    intro c hc
    simp only [List.mem_append, List.mem_singleton] at hc
    rcases hc with hc | hc
    · exact ⟨(hchars c hc).1, (hchars c hc).2.1⟩
    · rw [hc]; decide
  -- the position that `end` points to after the suffix test
  have hend : (strchr (c0 :: ' ' :: (intNumeral g ++ 'd' :: tail)) 2 ' ').getD
      (c0 :: ' ' :: (intNumeral g ++ 'd' :: tail)).length = (intNumeral g).length + 3 := by
    unfold strchr
    simp only [List.drop_succ_cons, List.drop_zero]
    rcases htail with rfl | ⟨rest, rfl⟩
    · rw [strchrFrom_absent _ _ (fun c hc => (hpre c hc).1)]
      simp
    · have e : intNumeral g ++ 'd' :: ' ' :: rest = (intNumeral g ++ ['d']) ++ ' ' :: rest := by
        simp
      rw [e, strchrFrom_found _ _ _ hpre]
      simp
      omega
  have hch : charAt (c0 :: ' ' :: (intNumeral g ++ 'd' :: tail))
      ((intNumeral g).length + 3 - 1) = 'd' := by
    have e : c0 :: ' ' :: (intNumeral g ++ 'd' :: tail) =
        (c0 :: ' ' :: intNumeral g) ++ 'd' :: tail := by simp
    have e2 : (intNumeral g).length + 3 - 1 = (c0 :: ' ' :: intNumeral g).length := by
      simp
    rw [e, e2]
    unfold charAt
    rw [List.getD_eq_getElem?_getD, List.getElem?_append_right (le_refl _)]
    simp
  have hset : (c0 :: ' ' :: (intNumeral g ++ 'd' :: tail)).set ((intNumeral g).length + 3 - 1)
      NUL = c0 :: ' ' :: (intNumeral g ++ NUL :: tail) := by
    have e2 : (intNumeral g).length + 3 - 1 = (intNumeral g).length + 1 + 1 := by omega
    rw [e2, List.set_cons_succ, List.set_cons_succ]
    congr 2
    rw [List.set_append_right _ _ (le_refl _)]
    simp
  unfold parseToken
  simp only [hend, hch, decide_True, if_true, hset, List.drop_succ_cons, List.drop_zero]
  rw [atol_intNumeral_nul g tail h1 h2]

theorem strchr_first_space (c0 : Char) (rest : List Char) (h : c0 = 'l' ∨ c0 = 'r') :
    strchr (c0 :: ' ' :: rest) 0 ' ' = some 1 := by
  unfold strchr
  rw [List.drop_zero]
  have := strchrFrom_found [c0] rest 0 (by
    intro c hc
    simp only [List.mem_singleton] at hc
    rcases h with e | e <;> (rw [hc, e]; decide))
  simpa using this

theorem rawInterval_finite (undef : Nat) (d n : Int) (a b : Nat)
    (h : microsBetweenSteps d n = some (false, a, b)) (hlt : a / b < 4294967296) :
    rawInterval undef d n = a / b := by
  unfold rawInterval
  rw [h]
  simp [toULong, hlt]

/-- C11 (as the code behaves): for a rotation line accepted into a `Done` target slot whose
steps token is the decimal numeral of an integer `g` with `|g| <= 526731` (so that `g * 4077`
fits a 32-bit `long`) followed by the suffix `d`, at the end of the line or before a space,
the stored `numSteps` is `g * 4077 / 360` with the division truncating toward zero, negated for
`r`. In particular the line `r 90d 1` stores `numSteps = -1019`, `quick = true` and a
`microstep` of 2000. -/
theorem degrees_suffix_converts_steps (undef : Nat) (s : Controller)
    (hin : s.produceCommand < s.commands.length)
    (hdone : (s.slot s.produceCommand).state = Command.done) :
    (∀ (c0 : Char) (g : Int) (tail : List Char),
      IsRotation (c0 :: ' ' :: (intNumeral g ++ 'd' :: tail)) →
      (tail = [] ∨ ∃ rest, tail = ' ' :: rest) →
      -526731 ≤ g → g ≤ 526731 →
      ((processLine undef (c0 :: ' ' :: (intNumeral g ++ 'd' :: tail)) s).1.slot
        s.produceCommand).numSteps =
        (if c0 = 'r' then -(Int.tdiv (g * 4077) 360) else Int.tdiv (g * 4077) 360)) ∧
    (((processLine undef ['r', ' ', '9', '0', 'd', ' ', '1'] s).1.slot
        s.produceCommand).numSteps = -1019 ∧
      ((processLine undef ['r', ' ', '9', '0', 'd', ' ', '1'] s).1.slot
        s.produceCommand).quick = true ∧
      ((processLine undef ['r', ' ', '9', '0', 'd', ' ', '1'] s).1.slot
        s.produceCommand).microstep = 2000) := by
  constructor
  · intro c0 g tail hline htail hlo hhi
    have hc0 : c0 = 'l' ∨ c0 = 'r' := hline
    rw [processLine_rotation undef _ s hline]
    unfold rotateCommand
    simp only
    rw [enqueue_slot undef _ _ s _ hdone, if_pos ⟨rfl, hin⟩]
    simp only
    rw [rotationValues_fst _ 1 (strchr_first_space c0 _ hc0),
      parseToken_degrees c0 g tail htail (by omega) (by omega)]
    have hw : wrapLong (g * stepsPerRevolution) = g * 4077 := by
      unfold stepsPerRevolution
      exact wrapLong_of_range _ (by omega) (by omega)
    rw [hw]
    have hna : (Int.tdiv (g * 4077) 360).natAbs ≤ (g * 4077).natAbs := by
      rw [Int.natAbs_tdiv]
      exact Nat.div_le_self _ _
    have hch : charAt (c0 :: ' ' :: (intNumeral g ++ 'd' :: tail)) 0 = c0 := rfl
    rw [hch]
    split_ifs
    · exact wrapLong_of_range _ (by omega) (by omega)
    · rfl
  · have hline : IsRotation ['r', ' ', '9', '0', 'd', ' ', '1'] := by decide
    have hv : rotationValues ['r', ' ', '9', '0', 'd', ' ', '1'] = (1019, 1) := by decide
    have hraw : rawInterval undef 1 (-1019) = 981 :=
      rawInterval_finite undef 1 (-1019) 16078508 16384 (by decide) (by decide)
    have hcl : clampedInterval undef 1 (-1019) = 1000 := by
      unfold clampedInterval
      rw [hraw]; rfl
    rw [processLine_rotation undef _ s hline]
    unfold rotateCommand
    simp only
    rw [enqueue_slot undef _ _ s _ hdone, if_pos ⟨rfl, hin⟩, hv]
    have h1 : (if charAt ['r', ' ', '9', '0', 'd', ' ', '1'] 0 = 'r'
        then wrapLong (-(1019, (1 : Int)).1) else (1019, (1 : Int)).1) = -1019 := by decide
    have h2 : wrapInt ((1019 : Int), (1 : Int)).2 = 1 := by decide
    simp only [h1, h2, hcl]
    decide

/-- Witness for C11: the lines `l -5d` and `r 90d 1` sent to the freshly set up controller. -/
theorem degrees_suffix_converts_steps_witness :
    Controller.init.produceCommand < Controller.init.commands.length ∧
    (Controller.init.slot Controller.init.produceCommand).state = Command.done ∧
    ['l', ' ', '-', '5', 'd'] = 'l' :: ' ' :: (intNumeral (-5) ++ 'd' :: []) ∧
    ((processLine 0 ('l' :: ' ' :: (intNumeral (-5) ++ 'd' :: [])) Controller.init).1.slot
      0).numSteps = -56 ∧
    ((processLine 0 ['r', ' ', '9', '0', 'd', ' ', '1'] Controller.init).1.slot 0).numSteps
      = -1019 :=
  have h := degrees_suffix_converts_steps 0 Controller.init (by decide) (by decide)
  ⟨by decide, by decide, by decide,
    h.1 'l' (-5) [] (by decide) (Or.inl rfl) (by decide) (by decide), h.2.1⟩

/-- C11 (counterexample to the claim as stated): for `g = 600000` the product `g * 4077`
does not fit a 32-bit `long`; the line `l 600000d` stores `numSteps = -5135464`, not
`600000 * 4077 / 360 = 6795000`. -/
theorem degrees_product_overflows :
    Int.tdiv (600000 * 4077) 360 = 6795000 ∧
    ((processLine 0 ['l', ' ', '6', '0', '0', '0', '0', '0', 'd'] Controller.init).1.slot
      0).state = Command.pending ∧
    ((processLine 0 ['l', ' ', '6', '0', '0', '0', '0', '0', 'd'] Controller.init).1.slot
      0).numSteps = -5135464 ∧
    ((processLine 0 ['l', ' ', '6', '0', '0', '0', '0', '0', 'd'] Controller.init).1.slot
      0).numSteps ≠ Int.tdiv (600000 * 4077) 360 := by
  decide

/-- C12 (as the code behaves): the line `l 1020 2`, accepted into a `Done` slot, stores
`numSteps = 1020` (no sign flip) and `duration = 2`; the interval `2000000 / 1020 = 1960.78...`
is converted to the unsigned integer 1960 (the conversion truncates), so `quick = true` and
the stored `microstep` is 3920 (1960 doubled). -/
theorem example_l_1020_2_truncates (undef : Nat) (s : Controller)
    (hin : s.produceCommand < s.commands.length)
    (hdone : (s.slot s.produceCommand).state = Command.done) :
    ((processLine undef ['l', ' ', '1', '0', '2', '0', ' ', '2'] s).1.slot
      s.produceCommand).numSteps = 1020 ∧
    ((processLine undef ['l', ' ', '1', '0', '2', '0', ' ', '2'] s).1.slot
      s.produceCommand).duration = 2 ∧
    rawInterval undef 2 1020 = 1960 ∧
    ((processLine undef ['l', ' ', '1', '0', '2', '0', ' ', '2'] s).1.slot
      s.produceCommand).quick = true ∧
    ((processLine undef ['l', ' ', '1', '0', '2', '0', ' ', '2'] s).1.slot
      s.produceCommand).microstep = 3920 ∧
    ((processLine undef ['l', ' ', '1', '0', '2', '0', ' ', '2'] s).1.slot
      s.produceCommand).state = Command.pending := by
  have hline : IsRotation ['l', ' ', '1', '0', '2', '0', ' ', '2'] := by decide
  have hv : rotationValues ['l', ' ', '1', '0', '2', '0', ' ', '2'] = (1020, 2) := by decide
  have hraw : rawInterval undef 2 1020 = 1960 :=
    rawInterval_finite undef 2 1020 16062745 8192 (by decide) (by decide)
  have hcl : clampedInterval undef 2 1020 = 1960 := by
    unfold clampedInterval
    rw [hraw]; rfl
  rw [processLine_rotation undef _ s hline]
  unfold rotateCommand
  simp only
  rw [enqueue_slot undef _ _ s _ hdone, if_pos ⟨rfl, hin⟩, hv]
  have h1 : (if charAt ['l', ' ', '1', '0', '2', '0', ' ', '2'] 0 = 'r'
      then wrapLong (-((1020 : Int), (2 : Int)).1) else ((1020 : Int), (2 : Int)).1) = 1020 := by
    decide
  have h2 : wrapInt ((1020 : Int), (2 : Int)).2 = 2 := by decide
  simp only [h1, h2, hcl, hraw]
  decide

/-- Witness for C12: the line `l 1020 2` sent to the freshly set up controller. -/
theorem example_l_1020_2_truncates_witness :
    Controller.init.produceCommand < Controller.init.commands.length ∧
    (Controller.init.slot Controller.init.produceCommand).state = Command.done ∧
    ((processLine 0 ['l', ' ', '1', '0', '2', '0', ' ', '2'] Controller.init).1.slot
      0).numSteps = 1020 ∧
    ((processLine 0 ['l', ' ', '1', '0', '2', '0', ' ', '2'] Controller.init).1.slot
      0).microstep = 3920 :=
  have h := example_l_1020_2_truncates 0 Controller.init (by decide) (by decide)
  ⟨by decide, by decide, h.1, h.2.2.2.2.1⟩

/-- C12 (counterexample to the claim as stated): for the line `l 1020 2` sent to the freshly
set up controller the interval before doubling is 1960, not 1961, and the stored `microstep`
is 3920, not 3922. -/
theorem example_l_1020_2_not_rounded :
    ((processLine 0 ['l', ' ', '1', '0', '2', '0', ' ', '2'] Controller.init).1.slot
      0).state = Command.pending ∧
    clampedInterval 0 2 1020 = 1960 ∧
    clampedInterval 0 2 1020 ≠ 1961 ∧
    ((processLine 0 ['l', ' ', '1', '0', '2', '0', ' ', '2'] Controller.init).1.slot
      0).microstep = 3920 ∧
    ((processLine 0 ['l', ' ', '1', '0', '2', '0', ' ', '2'] Controller.init).1.slot
      0).microstep ≠ 3922 := by
  decide



theorem reporterStep_running (s : Controller) (h : 0 ≤ s.reporterIndex) :
    reporterStep s = ({ s with reporterIndex := reporterNext s.reporterIndex }, true,
      reporterEmit s s.reporterIndex) := by
  unfold reporterStep
  rw [if_neg (by omega)]

theorem reporterStep_idle (s : Controller) (h : s.reporterIndex < 0) :
    reporterStep s = (s, false, []) := by
  unfold reporterStep
  rw [if_pos h]

/-- C13 (as the code behaves): for a machine state with a status report mid-stream (reporter
index `>= 0`), the first phase of a loop pass steps the reporter exactly once (the index moves
to its successor, the fragment of the old index is printed first in the pass, no byte is taken
in) when `freezeMode` is not `freezeComm` or no command is executing; when `freezeMode` is
`freezeComm` and a command is executing, the reporter is not stepped: the phase changes
nothing and prints nothing. -/
theorem reporter_steps_unless_comm_frozen (inp : LoopInput) (m : Machine)
    (hmid : 0 ≤ m.ctl.reporterIndex) :
    ((m.ctl.freezeMode ≠ freezeComm ∨ m.ctl.executing = false) →
      (intakePhase inp m).1 =
        { m with ctl := { m.ctl with reporterIndex := reporterNext m.ctl.reporterIndex } } ∧
      (intakePhase inp m).2 = reporterEmit m.ctl m.ctl.reporterIndex ∧
      ∃ rest, (loop inp m).2 = reporterEmit m.ctl m.ctl.reporterIndex ++ rest) ∧
    ((m.ctl.freezeMode = freezeComm ∧ m.ctl.executing = true) →
      intakePhase inp m = (m, [])) := by
  constructor
  · intro h
    have hp : intakePhase inp m =
        ({ m with ctl := { m.ctl with reporterIndex := reporterNext m.ctl.reporterIndex } },
          reporterEmit m.ctl m.ctl.reporterIndex) := by
      unfold intakePhase
      rw [if_pos h, reporterStep_running m.ctl hmid]
      simp
    refine ⟨by rw [hp], by rw [hp], ?_⟩
    unfold loop
    simp only [hp, List.append_assoc]
    exact ⟨_, rfl⟩
  · intro h
    unfold intakePhase
    rw [if_neg]
    simp [h.1, h.2]

/-- Witness for C13: a report at index 1 on the freshly set up controller prints its first
header; the same index with communication frozen and a command executing is held. -/
theorem reporter_steps_unless_comm_frozen_witness :
    (intakePhase (quietInput 0)
      { Machine.init with ctl := { Controller.init with reporterIndex := 1 } }).2 =
        [Output.reportHeader1 false] ∧
    reportHeldBack.ctl.reporterIndex = 1 ∧
    intakePhase (quietInput 20050) reportHeldBack = (reportHeldBack, []) :=
  ⟨((reporter_steps_unless_comm_frozen (quietInput 0)
      { Machine.init with ctl := { Controller.init with reporterIndex := 1 } }
      (by decide)).1 (Or.inl (by decide))).2.1,
    by decide,
    (reporter_steps_unless_comm_frozen (quietInput 20050) reportHeldBack (by decide)).2
      ⟨by decide, by decide⟩⟩

/-- C13 (counterexample to the claim as stated): with `freezeMode = freezeComm`, a command
executing and the report mid-stream at index 1, two further loop passes leave the reporter at
index 1 and print no report line, while a step of the reporter would have printed the first
header. -/
theorem reporter_suppressed_by_comm_freeze :
    reportHeldBack.ctl.freezeMode = freezeComm ∧
    reportHeldBack.ctl.executing = true ∧
    reportHeldBack.ctl.reporterIndex = 1 ∧
    (reporterStep reportHeldBack.ctl).2.2 = [Output.reportHeader1 true] ∧
    (loop (quietInput 20050) reportHeldBack).1.ctl.reporterIndex = 1 ∧
    (loop (quietInput 20050) reportHeldBack).2 = [Output.drive 3] ∧
    (loop (quietInput 20060) (loop (quietInput 20050) reportHeldBack).1).1.ctl.reporterIndex
      = 1 ∧
    (loop (quietInput 20060) (loop (quietInput 20050) reportHeldBack).1).2 = [] := by
  decide

theorem advanceSteps_ne_zero (k : Nat) (n : Int) (e : Nat) (hk : k = 1 ∨ k = 2)
    (hn : 2 < |n|) : (advanceSteps k n e).1 ≠ 0 := by
  rcases hk with rfl | rfl
  · rw [advanceSteps_one]
    rcases lt_trichotomy n 0 with h | h | h
    · rw [abs_of_neg h] at hn
      simp only [h, if_true]; omega
    · subst h; simp at hn
    · rw [abs_of_pos h] at hn
      have h' : ¬ n < 0 := by omega
      simp only [h', h, if_true, if_false]; omega
  · rw [advanceSteps_two, advanceSteps_one, advanceSteps_one]
    rcases lt_trichotomy n 0 with h | h | h
    · rw [abs_of_neg h] at hn
      have h1 : n + 1 < 0 := by omega
      simp only [h, h1, if_true]; omega
    · subst h; simp at hn
    · rw [abs_of_pos h] at hn
      have h' : ¬ n < 0 := by omega
      have h1 : ¬ n - 1 < 0 := by omega
      have h2 : 0 < n - 1 := by omega
      simp only [h', h, h1, h2, if_true, if_false]; omega

theorem advanceActive_abs_lt (s : Controller) (hin : s.consumeCommand < s.commands.length)
    (hne : (s.slot s.consumeCommand).numSteps ≠ 0) :
    |((advanceActive s).slot s.consumeCommand).numSteps| <
      |(s.slot s.consumeCommand).numSteps| := by
  have hk : (if (s.slot s.consumeCommand).quick = true then 2 else 1) = 1 ∨
      (if (s.slot s.consumeCommand).quick = true then 2 else 1) = 2 := by
    split_ifs
    · exact Or.inr rfl
    · exact Or.inl rfl
  rw [advanceActive_slot, if_pos ⟨rfl, hin⟩]
  exact (advanceSteps_abs _ (s.slot s.consumeCommand).numSteps s.eighth hk hne).1

/-- C14 (as the code behaves): a freeze leaves `nextStepTime` where it was and every advance
moves it by exactly `microstep`, so catch-up steps do happen: for an `Active` command with
more than two steps left, execution not frozen, and `nextStepTime + microstep <= now` (it was
held for longer than its `microstep`), the tick at `now` advances and the tick right after it,
at any clock value `later >= now` however close, advances again. -/
theorem resume_catches_up (now later : Nat) (s : Controller)
    (hin : s.consumeCommand < s.commands.length)
    (hact : (s.slot s.consumeCommand).state = Command.active)
    (hsteps : 2 < |(s.slot s.consumeCommand).numSteps|)
    (hfr : s.freezeMode ≠ freezeExec)
    (hheld : (s.slot s.consumeCommand).nextStepTime + (s.slot s.consumeCommand).microstep ≤ now)
    (hlater : now ≤ later) :
    (schedulerTick now s).2 = [Output.drive (s.eighth % 8)] ∧
    ((schedulerTick now s).1.slot s.consumeCommand).nextStepTime =
      wrapULong ((s.slot s.consumeCommand).nextStepTime + (s.slot s.consumeCommand).microstep) ∧
    (schedulerTick later (schedulerTick now s).1).2 =
      [Output.drive ((schedulerTick now s).1.eighth % 8)] ∧
    |((schedulerTick later (schedulerTick now s).1).1.slot s.consumeCommand).numSteps| <
      |((schedulerTick now s).1.slot s.consumeCommand).numSteps| := by
  have hne : (s.slot s.consumeCommand).numSteps ≠ 0 := by
    intro h; rw [h] at hsteps; simp at hsteps
  have h1 := schedulerTick_due now s hact hne hfr (by omega)
  have hk : (if (s.slot s.consumeCommand).quick = true then 2 else 1) = 1 ∨
      (if (s.slot s.consumeCommand).quick = true then 2 else 1) = 2 := by
    split_ifs
    · exact Or.inr rfl
    · exact Or.inl rfl
  have hslot := advanceActive_slot s s.consumeCommand
  rw [if_pos ⟨rfl, hin⟩] at hslot
  have hc : (advanceActive s).consumeCommand = s.consumeCommand := rfl
  have hl : (advanceActive s).commands.length = s.commands.length := by
    simp [advanceActive]
  have hact2 : ((advanceActive s).slot (advanceActive s).consumeCommand).state =
      Command.active := by
    rw [hc, advanceActive_state]; exact hact
  have hne2 : ((advanceActive s).slot (advanceActive s).consumeCommand).numSteps ≠ 0 := by
    rw [hc, hslot]
    exact advanceSteps_ne_zero _ _ _ hk hsteps
  have hdue2 : ((advanceActive s).slot (advanceActive s).consumeCommand).nextStepTime ≤
      later := by
    rw [hc, hslot]
    simp only
    unfold wrapULong
    have := Nat.mod_le ((s.slot s.consumeCommand).nextStepTime +
      (s.slot s.consumeCommand).microstep) 4294967296
    omega
  have h2 := schedulerTick_due later (advanceActive s) hact2 hne2 hfr hdue2
  have h5 := advanceActive_abs_lt (advanceActive s) (by rw [hc, hl]; exact hin) hne2
  rw [hc] at h5
  rw [h1]
  refine ⟨rfl, ?_, ?_, ?_⟩
  · show ((advanceActive s).slot s.consumeCommand).nextStepTime = _
    rw [hslot]
  · show (schedulerTick later (advanceActive s)).2 = _
    rw [h2]
  · show |((schedulerTick later (advanceActive s)).1.slot s.consumeCommand).numSteps| <
      |((advanceActive s).slot s.consumeCommand).numSteps|
    rw [h2]
    exact h5

/-- Witness for C14: the command released after a long freeze steps at clock value 5000000
and again 10 microseconds later, although its `microstep` is 1000000. -/
theorem resume_catches_up_witness :
    (resumed.slot 0).microstep = 1000000 ∧ (resumed.slot 0).nextStepTime = 1000 ∧
    (schedulerTick 5000000 resumed).2 = [Output.drive (resumed.eighth % 8)] ∧
    (schedulerTick 5000010 (schedulerTick 5000000 resumed).1).2 =
      [Output.drive ((schedulerTick 5000000 resumed).1.eighth % 8)] :=
  have h := resume_catches_up 5000000 5000010 resumed (by decide) (by decide) (by decide)
    (by decide) (by decide) (by decide)
  ⟨by decide, by decide, h.1, h.2.2.1⟩

/-- C14 (counterexample to the claim as stated): a command with `microstep = 1000000`, held by
a freeze from clock value 1000 on and released, advances on the tick at 5000000 and again on
the ticks at 5000010 and 5000020, which are 10 microseconds apart. -/
theorem catch_up_burst_after_freeze :
    (resumed.slot 0).state = Command.active ∧
    (resumed.slot 0).microstep = 1000000 ∧
    (resumed.slot 0).nextStepTime = 1000 ∧
    (resumed.slot 0).numSteps = 9 ∧
    (schedulerTick 5000000 resumed).2 = [Output.drive 0] ∧
    (schedulerTick 5000010 (schedulerTick 5000000 resumed).1).2 = [Output.drive 1] ∧
    (schedulerTick 5000020
      (schedulerTick 5000010 (schedulerTick 5000000 resumed).1).1).2 = [Output.drive 2] ∧
    ((schedulerTick 5000020
      (schedulerTick 5000010 (schedulerTick 5000000 resumed).1).1).1.slot 0).numSteps = 6 := by
  decide

/-- C15 (as the code behaves): with `freezeMode = freezeExec`, one scheduler tick leaves the
lifecycle state of every queue slot unchanged except for the completion, which the freeze
does not gate: an `Active` command at `consumeCommand` whose `numSteps` is 0 becomes
`Done`. -/
theorem freeze_keeps_states_except_completion (now : Nat) (s : Controller)
    (hf : s.freezeMode = freezeExec) :
    ∀ i, ((schedulerTick now s).1.slot i).state =
      if i = s.consumeCommand ∧ s.consumeCommand < s.commands.length ∧
          (s.slot s.consumeCommand).state = Command.active ∧
          (s.slot s.consumeCommand).numSteps = 0
      then Command.done else (s.slot i).state := by
  intro i
  by_cases h1 : (s.slot s.consumeCommand).state = Command.active
  · by_cases h2 : (s.slot s.consumeCommand).numSteps = 0
    · have ht : schedulerTick now s = (finishActive s, [Output.finished s.consumeCommand]) := by
        unfold schedulerTick; simp [h1, h2]
      rw [ht]
      show ((finishActive s).slot i).state = _
      rw [finishActive_state]
      by_cases hc : s.consumeCommand = i ∧ s.consumeCommand < s.commands.length
      · rw [if_pos hc, if_pos ⟨hc.1.symm, hc.2, h1, h2⟩]
      · rw [if_neg hc, if_neg]
        rintro ⟨e, hl, _, _⟩
        exact hc ⟨e.symm, hl⟩
    · have ht : schedulerTick now s = ({ s with executing := true }, []) := by
        unfold schedulerTick; simp [h1, h2, hf]
      rw [ht, if_neg]
      · rfl
      · rintro ⟨_, _, _, e⟩; exact h2 e
  · have ht : schedulerTick now s = ({ s with executing := false }, []) := by
      unfold schedulerTick; simp [h1, hf]
    rw [ht, if_neg]
    · rfl
    · rintro ⟨_, _, e, _⟩; exact h1 e

/-- Witness for C15: with execution frozen the `Pending` slot 1 stays `Pending`. -/
theorem freeze_keeps_states_except_completion_witness :
    frozen.freezeMode = freezeExec ∧ (frozen.slot 1).state = Command.pending ∧
    ((schedulerTick 9000 frozen).1.slot 1).state = Command.pending :=
  ⟨by decide, by decide,
    (freeze_keeps_states_except_completion 9000 frozen (by decide) 1).trans (by decide)⟩

/-- C15 (counterexample to the claim as stated): with `freezeMode = freezeExec` and the
`Active` command of slot 0 at `numSteps = 0`, one scheduler tick changes the state of slot 0
from `Active` to `Done`. -/
theorem completion_not_gated_by_freeze :
    frozenAtZero.freezeMode = freezeExec ∧
    (frozenAtZero.slot 0).state = Command.active ∧
    (frozenAtZero.slot 0).numSteps = 0 ∧
    ((schedulerTick 9000 frozenAtZero).1.slot 0).state = Command.done ∧
    ((schedulerTick 9000 frozenAtZero).1.slot 0).state ≠ (frozenAtZero.slot 0).state ∧
    (schedulerTick 9000 frozenAtZero).2 = [Output.finished 0] := by
  decide

set_option maxRecDepth 100000 in
/-- C16 (the code at the failing input): with the queue full and the command of slot 0 just
completed, the line `l 9` is accepted into slot 0, where `consumeCommand` still points, and the
next tick starts it, ahead of the command `l 7` that has been `Pending` in slot 1 since before
and of the 22 commands behind it. -/
theorem queue_jump_into_freed_slot :
    (slotZeroFreed.slot 0).state = Command.done ∧
    slotZeroFreed.consumeCommand = 0 ∧ slotZeroFreed.produceCommand = 0 ∧
    (slotZeroFreed.slot 1).state = Command.pending ∧ (slotZeroFreed.slot 1).numSteps = 7 ∧
    ((processLine 0 ['l', ' ', '9'] slotZeroFreed).1.slot 0).state = Command.pending ∧
    (schedulerTick 3 (processLine 0 ['l', ' ', '9'] slotZeroFreed).1).2 =
      [Output.starting 0 9] ∧
    ((schedulerTick 3 (processLine 0 ['l', ' ', '9'] slotZeroFreed).1).1.slot 0).state =
      Command.active ∧
    ((schedulerTick 3 (processLine 0 ['l', ' ', '9'] slotZeroFreed).1).1.slot 0).numSteps = 9 ∧
    ((schedulerTick 3 (processLine 0 ['l', ' ', '9'] slotZeroFreed).1).1.slot 1).state =
      Command.pending := by
  decide

theorem advanceSteps_exact (k : Nat) (n : Int) (e : Nat) (hk : k = 1 ∨ k = 2) (hn : n ≠ 0) :
    advanceSteps k n e =
      if 0 < n then (n - (min n.natAbs k : Nat), (e + min n.natAbs k) % 256)
      else (n + (min n.natAbs k : Nat), (e + (256 - min n.natAbs k)) % 256) := by
  rcases hk with rfl | rfl
  · rw [advanceSteps_one]
    rcases lt_trichotomy n 0 with h | h | h
    · have h' : ¬ 0 < n := by omega
      have hm : min n.natAbs 1 = 1 := by omega
      simp only [h, h', if_true, if_false, hm, wrapU8]
      rfl
    · exact absurd h hn
    · have h' : ¬ n < 0 := by omega
      have hm : min n.natAbs 1 = 1 := by omega
      simp only [h, h', if_true, if_false, hm, wrapU8]
      rfl
  · rw [advanceSteps_two, advanceSteps_one, advanceSteps_one]
    rcases lt_trichotomy n 0 with h | h | h
    · have h' : ¬ 0 < n := by omega
      simp only [h, h', if_true, if_false, wrapU8]
      by_cases h1 : n + 1 < 0
      · have hm : min n.natAbs 2 = 2 := by omega
        simp only [h1, if_true, hm]
        refine Prod.ext ?_ ?_
        · simp only [Nat.cast_ofNat]; omega
        · simp only; omega
      · have hm : min n.natAbs 2 = 1 := by omega
        have h2 : ¬ 0 < n + 1 := by omega
        simp only [h1, h2, if_false, hm]
        refine Prod.ext ?_ ?_
        · simp only [Nat.cast_one]
        · simp only
    · exact absurd h hn
    · have h' : ¬ n < 0 := by omega
      simp only [h, h', if_true, if_false, wrapU8]
      have h1 : ¬ n - 1 < 0 := by omega
      by_cases h2 : 0 < n - 1
      · have hm : min n.natAbs 2 = 2 := by omega
        simp only [h1, h2, if_true, if_false, hm]
        refine Prod.ext ?_ ?_
        · simp only [Nat.cast_ofNat]; omega
        · simp only; omega
      · have hm : min n.natAbs 2 = 1 := by omega
        simp only [h1, h2, if_false, hm]
        refine Prod.ext ?_ ?_
        · simp only [Nat.cast_one]
        · simp only

/-- C18: on a tick where the `Active` command has `numSteps != 0`, execution is not frozen and
the step is due, exactly one drive call is issued, with the phase `eighth mod 8` as it was
before the tick; with `k = 2` if `quick` and 1 otherwise and `m = min(|numSteps|, k)`,
`numSteps` moves toward zero by `m`, `eighth` moves by `m` modulo 256 (up for positive
`numSteps`, down for negative), and `nextStepTime` becomes `nextStepTime + microstep` modulo
`2^32`, whatever the clock value. -/
theorem advance_tick_exact (now : Nat) (s : Controller)
    (hin : s.consumeCommand < s.commands.length)
    (hact : (s.slot s.consumeCommand).state = Command.active)
    (hne : (s.slot s.consumeCommand).numSteps ≠ 0)
    (hfr : s.freezeMode ≠ freezeExec)
    (hdue : (s.slot s.consumeCommand).nextStepTime ≤ now) :
    (schedulerTick now s).2 = [Output.drive (s.eighth % 8)] ∧
    ((schedulerTick now s).1.slot s.consumeCommand).numSteps =
      (if 0 < (s.slot s.consumeCommand).numSteps
       then (s.slot s.consumeCommand).numSteps -
         (min (s.slot s.consumeCommand).numSteps.natAbs
           (if (s.slot s.consumeCommand).quick = true then 2 else 1) : Nat)
       else (s.slot s.consumeCommand).numSteps +
         (min (s.slot s.consumeCommand).numSteps.natAbs
           (if (s.slot s.consumeCommand).quick = true then 2 else 1) : Nat)) ∧
    (schedulerTick now s).1.eighth =
      (if 0 < (s.slot s.consumeCommand).numSteps
       then (s.eighth + min (s.slot s.consumeCommand).numSteps.natAbs
           (if (s.slot s.consumeCommand).quick = true then 2 else 1)) % 256
       else (s.eighth + (256 - min (s.slot s.consumeCommand).numSteps.natAbs
           (if (s.slot s.consumeCommand).quick = true then 2 else 1))) % 256) ∧
    ((schedulerTick now s).1.slot s.consumeCommand).nextStepTime =
      ((s.slot s.consumeCommand).nextStepTime + (s.slot s.consumeCommand).microstep) %
        4294967296 := by
  have hk : (if (s.slot s.consumeCommand).quick = true then 2 else 1) = 1 ∨
      (if (s.slot s.consumeCommand).quick = true then 2 else 1) = 2 := by
    split_ifs
    · exact Or.inr rfl
    · exact Or.inl rfl
  have hex := advanceSteps_exact _ (s.slot s.consumeCommand).numSteps s.eighth hk hne
  rw [schedulerTick_due now s hact hne hfr hdue]
  refine ⟨rfl, ?_, ?_, ?_⟩
  · show ((advanceActive s).slot s.consumeCommand).numSteps = _
    rw [advanceActive_slot, if_pos ⟨rfl, hin⟩]
    show (advanceSteps _ _ _).1 = _
    rw [hex]
    split_ifs <;> rfl
  · show (advanceActive s).eighth = _
    unfold advanceActive
    show (advanceSteps _ _ _).2 = _
    rw [hex]
    split_ifs <;> rfl
  · show ((advanceActive s).slot s.consumeCommand).nextStepTime = _
    rw [advanceActive_slot, if_pos ⟨rfl, hin⟩]
    rfl

/-- Witness for C18: the quick command with one step left consumes one step, not two. -/
theorem advance_tick_exact_witness :
    (lastStep.slot lastStep.consumeCommand).numSteps = 1 ∧
    (lastStep.slot lastStep.consumeCommand).quick = true ∧
    (schedulerTick 4007 lastStep).2 = [Output.drive (lastStep.eighth % 8)] ∧
    ((schedulerTick 4007 lastStep).1.slot lastStep.consumeCommand).numSteps = 0 ∧
    (schedulerTick 4007 lastStep).1.eighth = (lastStep.eighth + 1) % 256 :=
  have h := advance_tick_exact 4007 lastStep (by decide) (by decide) (by decide) (by decide)
    (by decide)
  ⟨by decide, by decide, h.1, h.2.1.trans (by decide), h.2.2.1.trans (by decide)⟩

theorem count_set (p : Command → Bool) (s t : Controller) (i : Nat) (c : Command)
    (hi : i < s.commands.length) (ht : t.commands = s.commands.set i c) :
    t.commands.countP p + (if p (s.slot i) then 1 else 0) =
      s.commands.countP p + (if p c then 1 else 0) := by
  rw [ht, List.countP_set _ _ _ _ hi, slot_eq_getElem s i hi]
  have hle := List.boole_getElem_le_countP p s.commands i hi
  omega

theorem pendingSlots_le (s : Controller) : pendingSlots s ≤ s.commands.length :=
  List.countP_le_length _

theorem enqueue_pendingCounted (undef : Nat) (v0 v1 : Int) (s : Controller)
    (hw : WellFormed s) (h : PendingCounted s) : PendingCounted (enqueue undef v0 v1 s).1 := by
  by_cases hb : (s.slot s.produceCommand).state = Command.done
  · have hi : s.produceCommand < s.commands.length := by rw [hw.1]; exact hw.2.1
    have hc := count_set (fun c => decide (c.state = Command.pending)) s (enqueue undef v0 v1 s).1
      s.produceCommand _ hi (by rw [enqueue_free undef v0 v1 s hb])
    simp only [hb, Command.done, Command.pending, decide_True, decide_False, if_true,
      Bool.false_eq_true, if_false, add_zero, Nat.zero_ne_one] at hc
    have hle := pendingSlots_le s
    have hn : (enqueue undef v0 v1 s).1.numCommandsPending =
        wrapU8 (s.numCommandsPending + 1) := by rw [enqueue_free undef v0 v1 s hb]
    unfold PendingCounted at h ⊢
    unfold pendingSlots at h hle ⊢
    simp only [Command.pending] at h hle ⊢
    rw [hn, hc, h]
    unfold wrapU8
    rw [hw.1] at hle
    unfold maxCommands at hle
    omega
  · rw [enqueue_busy undef v0 v1 s hb]; exact h

theorem processLine_pendingCounted (undef : Nat) (line : List Char) (s : Controller)
    (hw : WellFormed s) (h : PendingCounted s) : PendingCounted (processLine undef line s).1 := by
  rcases processLine_cases undef line s with e | e | ⟨m, e⟩ | e | ⟨_, v0, v1, e⟩ <;> rw [e]
  · exact h
  · exact h
  · exact h
  · unfold PendingCounted pendingSlots clearCommands
    simp only [List.countP_replicate]
    rfl
  · exact enqueue_pendingCounted undef v0 v1 s hw h

theorem schedulerTick_pendingCounted (now : Nat) (s : Controller)
    (hw : WellFormed s) (h : PendingCounted s) : PendingCounted (schedulerTick now s).1 := by
  have hc : s.consumeCommand < s.commands.length := by rw [hw.1]; exact hw.2.2
  have hn : nextConsume s < s.commands.length := by
    rw [hw.1]; exact nextConsume_lt s hw.2.2
  unfold PendingCounted pendingSlots at h ⊢
  unfold schedulerTick
  split_ifs with h1 h2 h3 h4 h5 h6
  · have := count_set (fun c => decide (c.state = Command.pending)) s (finishActive s)
      s.consumeCommand { s.slot s.consumeCommand with state := Command.done } hc rfl
    simp only [h1, Command.active, Command.pending, Command.done] at this
    simp only [Command.pending] at h ⊢
    show s.numCommandsPending = _
    simp at this
    omega
  · have := count_set (fun c => decide (c.state = Command.pending)) s (advanceActive s)
      s.consumeCommand
      { s.slot s.consumeCommand with
        numSteps := (advanceSteps (if (s.slot s.consumeCommand).quick then 2 else 1)
          (s.slot s.consumeCommand).numSteps s.eighth).1
        nextStepTime := wrapULong ((s.slot s.consumeCommand).nextStepTime +
          (s.slot s.consumeCommand).microstep) } hc rfl
    simp only [h1, Command.active, Command.pending] at this
    simp only [Command.pending] at h ⊢
    show s.numCommandsPending = _
    simp at this
    omega
  · exact h
  · exact h
  · have := count_set (fun c => decide (c.state = Command.pending)) s (promote now s)
      (nextConsume s)
      { s.slot (nextConsume s) with state := Command.active, nextStepTime := now } hn rfl
    simp only [h6, Command.active, Command.pending] at this
    simp only [Command.pending] at h ⊢
    show s.numCommandsPending - 1 = _
    simp at this
    omega
  · exact h
  · exact h

theorem init_pendingCounted : PendingCounted Controller.init := by
  unfold PendingCounted pendingSlots Controller.init
  simp only [List.countP_replicate]
  rfl

theorem run_pendingCounted (steps : List Step) (s : Controller) (hw : WellFormed s)
    (h : PendingCounted s) : PendingCounted (run s steps) := by
  induction steps generalizing s with
  | nil => exact h
  | cons st rest ih =>
    apply ih (s.step st) (step_wellFormed s st hw)
    cases st with
    | line undef text => exact processLine_pendingCounted undef text s hw h
    | tick now => exact schedulerTick_pendingCounted now s hw h

/-- C20: in every state reachable from the state after `setup()` by processed lines and
scheduler ticks, `numCommandsPending` is the number of queue slots whose state is `Pending`;
so it is at most `maxCommands` and its decrement never passes below zero. -/
theorem pending_count_matches_slots (s : Controller) (h : Reachable s) :
    s.numCommandsPending = s.commands.countP (fun c => decide (c.state = Command.pending)) ∧
    s.numCommandsPending ≤ maxCommands := by
  obtain ⟨steps, rfl⟩ := h
  have hp := run_pendingCounted steps Controller.init init_wellFormed init_pendingCounted
  have hw := run_wellFormed steps Controller.init init_wellFormed
  refine ⟨hp, ?_⟩
  rw [hp, ← hw.1]
  exact pendingSlots_le _

/-- Witness for C20: with one command `Active` and one `Pending` the counter is 1. -/
theorem pending_count_matches_slots_witness :
    Reachable frozen ∧ frozen.numCommandsPending = 1 ∧
    frozen.numCommandsPending =
      frozen.commands.countP (fun c => decide (c.state = Command.pending)) :=
  ⟨⟨_, rfl⟩, by decide, (pending_count_matches_slots frozen ⟨_, rfl⟩).1⟩

theorem reporterNext_of_lt (i : Int) (h0 : 0 ≤ i) (h1 : i < (maxCommands : Int) + 3) :
    reporterNext i = if i = (maxCommands : Int) + 2 then -1 else i + 1 := by
  unfold reporterNext wrapI8
  simp only [maxCommands, Nat.cast_ofNat] at h1 ⊢
  split_ifs <;> omega

theorem reporterSteps_index (n : Nat) (s : Controller) (i : Nat)
    (hi : s.reporterIndex = i) (hn : i + n ≤ maxCommands + 2) :
    (reporterSteps n s).reporterIndex = ((i + n : Nat) : Int) := by
  induction n generalizing s i with
  | zero => simpa [reporterSteps] using hi
  | succ n ih =>
    unfold reporterSteps
    have h0 : (0 : Int) ≤ s.reporterIndex := by rw [hi]; omega
    have hstep : (reporterStep s).1.reporterIndex = ((i + 1 : Nat) : Int) := by
      rw [reporterStep_running s h0]
      show reporterNext s.reporterIndex = _
      rw [reporterNext_of_lt _ h0 (by rw [hi]; simp only [maxCommands] at hn ⊢; omega), hi]
      simp only [maxCommands] at hn ⊢
      split_ifs <;> omega
    rw [ih (reporterStep s).1 (i + 1) hstep (by omega)]
    congr 1; omega

theorem reporterSteps_succ (n : Nat) (s : Controller) :
    reporterSteps (n + 1) s = (reporterStep (reporterSteps n s)).1 := by
  induction n generalizing s with
  | zero => rfl
  | succ n ih =>
    show reporterSteps (n + 1) (reporterStep s).1 = _
    rw [ih]
    rfl

/-- C17 (as the code behaves): an idle reporter (index below 0) returns false and prints
nothing. A running one (index from 0 to `maxCommands + 2`) returns true and moves to the next
index, or to -1 after index `maxCommands + 2`; it prints nothing at index 0 (where `step()`
calls `start()`), the first header at index 1, the second header at index 2, and at index
`k + 3` the line of slot `k`, which is empty exactly when the slot is `Done`. So after a start
the indices run 0, 1, ..., `maxCommands + 2`, the report takes `maxCommands + 3` steps, and the
step after those returns false. -/
theorem reporter_sequence (s : Controller) :
    (s.reporterIndex < 0 → reporterStep s = (s, false, [])) ∧
    (0 ≤ s.reporterIndex → s.reporterIndex < (maxCommands : Int) + 3 →
      (reporterStep s).2.1 = true ∧
      (reporterStep s).1 =
        { s with reporterIndex :=
            if s.reporterIndex = (maxCommands : Int) + 2 then -1 else s.reporterIndex + 1 } ∧
      (s.reporterIndex = 0 → (reporterStep s).2.2 = []) ∧
      (s.reporterIndex = 1 → (reporterStep s).2.2 = [Output.reportHeader1 s.executing]) ∧
      (s.reporterIndex = 2 →
        (reporterStep s).2.2 = [Output.reportHeader2 s.numCommandsPending]) ∧
      (∀ k : Nat, k < maxCommands → s.reporterIndex = (k : Int) + 3 →
        (reporterStep s).2.2 = reporterCommand s k ∧
        (reporterCommand s k = [] ↔ (s.slot k).state = Command.done))) ∧
    (s.reporterIndex = 0 →
      (∀ n, n ≤ maxCommands + 2 → (reporterSteps n s).reporterIndex = (n : Int)) ∧
      (reporterSteps (maxCommands + 3) s).reporterIndex = -1 ∧
      (reporterStep (reporterSteps (maxCommands + 3) s)).2.1 = false) := by
  refine ⟨reporterStep_idle s, ?_, ?_⟩
  · intro h0 h1
    rw [reporterStep_running s h0, reporterNext_of_lt _ h0 h1]
    refine ⟨rfl, rfl, ?_, ?_, ?_, ?_⟩
    · intro e
      show reporterEmit s s.reporterIndex = _
      rw [e]; rfl
    · intro e
      show reporterEmit s s.reporterIndex = _
      rw [e]; rfl
    · intro e
      show reporterEmit s s.reporterIndex = _
      rw [e]; rfl
    · intro k hk e
      constructor
      · show reporterEmit s s.reporterIndex = _
        rw [e]
        unfold reporterEmit
        have e0 : ¬ ((k : Int) + 3 = 0) := by omega
        have e1 : ¬ ((k : Int) + 3 = 1) := by omega
        have e2 : ¬ ((k : Int) + 3 = 2) := by omega
        have e3 : (3 : Int) ≤ (k : Int) + 3 ∧ (k : Int) + 3 - 3 < (maxCommands : Int) := by
          constructor
          · omega
          · have : ((k : Nat) : Int) < (maxCommands : Int) := by exact_mod_cast hk
            omega
        rw [if_neg e0, if_neg e1, if_neg e2, if_pos e3]
        congr 1
        omega
      · unfold reporterCommand
        by_cases hd : (s.slot k).state = Command.done
        · simp [hd]
        · simp [hd]
  · intro e
    have hidx : ∀ n, n ≤ maxCommands + 2 → (reporterSteps n s).reporterIndex = (n : Int) := by
      intro n hn
      have := reporterSteps_index n s 0 (by rw [e]; rfl) (by omega)
      rw [this]
      congr 1; omega
    have hlast : (reporterSteps (maxCommands + 3) s).reporterIndex = -1 := by
      have h26 := hidx (maxCommands + 2) (le_refl _)
      have e26 : ((maxCommands + 2 : Nat) : Int) = 26 := by
        simp [maxCommands]
      rw [e26] at h26
      have hs : reporterSteps (maxCommands + 3) s =
          (reporterStep (reporterSteps (maxCommands + 2) s)).1 :=
        reporterSteps_succ (maxCommands + 2) s
      rw [hs, reporterStep_running _ (by rw [h26]; decide)]
      simp only [h26]
      decide
    refine ⟨hidx, hlast, ?_⟩
    rw [reporterStep_idle _ (by rw [hlast]; decide)]

/-- Witness for C17: the report started while a command is in flight prints nothing on its
first step and the first header on its second step. -/
theorem reporter_sequence_witness :
    reportStarted.reporterIndex = 0 ∧
    (reporterStep reportStarted).2.1 = true ∧
    (reporterStep reportStarted).2.2 = [] ∧
    (reporterSteps 27 reportStarted).reporterIndex = -1 :=
  have h := reporter_sequence reportStarted
  ⟨by decide, (h.2.1 (by decide) (by decide)).1, (h.2.1 (by decide) (by decide)).2.2.1
    (by decide), (h.2.2 (by decide)).2.1⟩

set_option maxRecDepth 100000 in
/-- C17 (counterexample to the claim as stated): after a start the first step prints nothing
(not the first header), the second step prints the first header (not the second), the third
prints the second header, the fourth the line of slot 0; after `maxCommands + 2 = 26` steps
the reporter is still running at index 26, and the 27th step returns true. -/
theorem reporter_first_step_prints_nothing :
    reportStarted.reporterIndex = 0 ∧
    (reporterStep reportStarted).2.2 = [] ∧
    (reporterStep (reporterSteps 1 reportStarted)).2.2 = [Output.reportHeader1 true] ∧
    (reporterStep (reporterSteps 2 reportStarted)).2.2 = [Output.reportHeader2 0] ∧
    (reporterStep (reporterSteps 3 reportStarted)).2.2 =
      [Output.reportSlot 0 3 0 true 6 true] ∧
    (reporterSteps 26 reportStarted).reporterIndex = 26 ∧
    (reporterStep (reporterSteps 26 reportStarted)).2.1 = true ∧
    (reporterStep (reporterSteps 27 reportStarted)).2.1 = false := by
  decide

theorem dropWhile_snoc (p : Char → Bool) (acc : List Char) (c : Char) :
    (acc ++ [c]).dropWhile p =
      if acc.dropWhile p = [] then (if p c then [] else [c]) else acc.dropWhile p ++ [c] := by
  induction acc with
  | nil =>
    simp only [List.nil_append, List.dropWhile_nil, if_true, List.dropWhile_cons]
  | cons a as ih =>
    by_cases ha : p a = true
    · simp only [List.cons_append, List.dropWhile_cons, ha, if_true]
      exact ih
    · simp only [List.cons_append, List.dropWhile_cons, ha, Bool.false_eq_true, if_false,
        List.cons_ne_nil, reduceCtorEq]

theorem trimmedLine_length (run : List Char) : (trimmedLine run).length ≤ 63 := by
  unfold trimmedLine
  rw [List.length_take]
  exact Nat.min_le_left _ _

theorem trimmedLine_snoc (acc : List Char) (c : Char) :
    trimmedLine (acc ++ [c]) =
      if (trimmedLine acc).length < 63 ∧ (c ≠ ' ' ∨ 0 < (trimmedLine acc).length)
      then trimmedLine acc ++ [c] else trimmedLine acc := by
  unfold trimmedLine
  rw [dropWhile_snoc]
  by_cases hd : acc.dropWhile (fun c => decide (c = ' ')) = []
  · rw [if_pos hd, hd]
    by_cases hc : c = ' '
    · simp [hc]
    · simp [hc]
  · rw [if_neg hd]
    have hpos : 0 < (acc.dropWhile (fun c => decide (c = ' '))).length :=
      List.length_pos.mpr hd
    by_cases hl : (acc.dropWhile (fun c => decide (c = ' '))).length < 63
    · have h1 : List.take 63 (acc.dropWhile (fun c => decide (c = ' '))) =
          acc.dropWhile (fun c => decide (c = ' ')) := List.take_of_length_le (by omega)
      have h2 : List.take 63 (acc.dropWhile (fun c => decide (c = ' ')) ++ [c]) =
          acc.dropWhile (fun c => decide (c = ' ')) ++ [c] :=
        List.take_of_length_le (by simp; omega)
      rw [h1, h2, if_pos ⟨hl, Or.inr hpos⟩]
    · have h2 : List.take 63 (acc.dropWhile (fun c => decide (c = ' ')) ++ [c]) =
          List.take 63 (acc.dropWhile (fun c => decide (c = ' '))) :=
        List.take_append_of_le_length (by omega)
      rw [h2, if_neg]
      rintro ⟨h, _⟩
      rw [List.length_take] at h
      omega

theorem drainByte_spec (undef : Nat) (c : Char) (m : Machine) (acc : List Char)
    (hacc : m.command = trimmedLine acc) :
    (drainByte undef c m).2.2 =
      (if isTerminator c then (if trimmedLine acc = [] then [] else [trimmedLine acc])
       else []) ∧
    (drainByte undef c m).1.command =
      (if isTerminator c then trimmedLine [] else trimmedLine (acc ++ [c])) := by
  unfold drainByte
  by_cases ht : isTerminator c = true
  · simp only [ht, if_true]
    by_cases he : m.command.length = 0
    · have he' : m.command = [] := List.length_eq_zero.mp he
      rw [if_pos he]
      rw [← hacc, he']
      exact ⟨rfl, rfl⟩
    · have he' : m.command ≠ [] := fun h => he (by rw [h]; rfl)
      rw [if_neg he]
      rw [← hacc, if_neg he']
      exact ⟨rfl, rfl⟩
  · simp only [ht, Bool.false_eq_true, if_false]
    rw [trimmedLine_snoc, ← hacc]
    by_cases hc : m.command.length < 63 ∧ (c ≠ ' ' ∨ 0 < m.command.length)
    · rw [if_pos hc, if_pos hc]
      exact ⟨rfl, rfl⟩
    · rw [if_neg hc, if_neg hc]
      exact ⟨rfl, rfl⟩

theorem drainBytes_spec (undef : Nat) (bytes : List Char) (m : Machine) (acc : List Char)
    (hacc : m.command = trimmedLine acc) :
    (drainBytes undef bytes m).2.2 = assembledLines acc bytes ∧
    (drainBytes undef bytes m).1.command = trimmedLine (openRun acc bytes) := by
  induction bytes generalizing m acc with
  | nil => exact ⟨rfl, hacc⟩
  | cons c cs ih =>
    obtain ⟨h1, h2⟩ := drainByte_spec undef c m acc hacc
    unfold drainBytes
    simp only
    by_cases ht : isTerminator c = true
    · simp only [ht, if_true] at h1 h2
      obtain ⟨i1, i2⟩ := ih (drainByte undef c m).1 [] h2
      rw [h1, i1, i2]
      unfold assembledLines
      simp only [terminatedRuns, openRun, ht, if_true, List.map_cons, List.filter_cons]
      by_cases he : trimmedLine acc = []
      · simp [he]
      · simp [he]
    · simp only [ht, Bool.false_eq_true, if_false] at h1 h2
      obtain ⟨i1, i2⟩ := ih (drainByte undef c m).1 (acc ++ [c]) h2
      rw [h1, i1, i2]
      unfold assembledLines
      simp only [terminatedRuns, openRun, ht, Bool.false_eq_true, if_false, List.nil_append]
      exact ⟨trivial, trivial⟩

theorem Buffer.read_wellFormed (b : Buffer) (h : b.WellFormed) : b.read.2.WellFormed := by
  obtain ⟨h1, h2, h3⟩ := h
  refine ⟨?_, ?_, h3⟩
  · simp [Buffer.read, h1]
  · simp only [Buffer.read, wrapU8]; omega

theorem Buffer.count_zero_iff (b : Buffer) (h : b.WellFormed) :
    b.available = false ↔ b.count = 0 := by
  obtain ⟨_, h2, h3⟩ := h
  unfold Buffer.available Buffer.count
  simp only [ne_eq, decide_not, Bool.not_eq_false', decide_eq_true_eq]
  omega

theorem Buffer.count_read (b : Buffer) (h : b.WellFormed) (ha : b.available = true) :
    b.read.2.count + 1 = b.count := by
  obtain ⟨_, h2, h3⟩ := h
  unfold Buffer.available at ha
  simp only [ne_eq, decide_not, Bool.not_eq_true', decide_eq_false_iff_not] at ha
  simp only [Buffer.read, Buffer.count, wrapU8]
  omega

theorem Buffer.waiting_read (b : Buffer) (h : b.WellFormed) (ha : b.available = true) :
    b.waiting = b.read.1 :: b.read.2.waiting := by
  have hc := Buffer.count_read b h ha
  obtain ⟨h1, h2, h3⟩ := h
  unfold Buffer.waiting
  rw [← hc, List.range_succ_eq_map, List.map_cons, List.map_map]
  congr 1
  · simp only [Buffer.read, Nat.add_zero, Nat.mod_eq_of_lt h2]
  · apply List.map_congr_left
    intro k hk
    rw [List.mem_range] at hk
    have hlt : b.read.2.count < 256 := Nat.mod_lt _ (by decide)
    simp only [Function.comp, Buffer.read, wrapU8]
    have hidx : ((b.readPos + 1) % 256 + k) % 256 = (b.readPos + (k + 1)) % 256 := by omega
    have hne : b.readPos ≠ (b.readPos + (k + 1)) % 256 := by omega
    rw [hidx, List.getD_eq_getElem?_getD, List.getD_eq_getElem?_getD,
      List.getElem?_set_ne hne]

theorem drainByte_frame (undef : Nat) (c : Char) (m n : Machine)
    (h1 : n.ctl = m.ctl) (h2 : n.command = m.command) :
    (drainByte undef c n).2 = (drainByte undef c m).2 ∧
    (drainByte undef c n).1.ctl = (drainByte undef c m).1.ctl ∧
    (drainByte undef c n).1.command = (drainByte undef c m).1.command ∧
    (drainByte undef c n).1.inputBuffer = n.inputBuffer := by
  unfold drainByte
  rw [h1, h2]
  split_ifs <;> simp [h1, h2]

theorem drainBytes_frame (undef : Nat) (bytes : List Char) (m n : Machine)
    (h1 : n.ctl = m.ctl) (h2 : n.command = m.command) :
    (drainBytes undef bytes n).2 = (drainBytes undef bytes m).2 ∧
    (drainBytes undef bytes n).1.ctl = (drainBytes undef bytes m).1.ctl ∧
    (drainBytes undef bytes n).1.command = (drainBytes undef bytes m).1.command := by
  induction bytes generalizing m n with
  | nil => exact ⟨rfl, h1, h2⟩
  | cons c cs ih =>
    obtain ⟨f1, f2, f3, _⟩ := drainByte_frame undef c m n h1 h2
    obtain ⟨i1, i2, i3⟩ := ih (drainByte undef c m).1 (drainByte undef c n).1 f2 f3
    unfold drainBytes
    simp only
    rw [f1, i1, i2, i3]
    exact ⟨rfl, rfl, rfl⟩

theorem drainLoop_eq_drainBytes (undef : Nat) (fuel : Nat) (m : Machine)
    (hb : m.inputBuffer.WellFormed) (hf : m.inputBuffer.count ≤ fuel) :
    (drainLoop undef fuel m).2 = (drainBytes undef m.inputBuffer.waiting m).2 ∧
    (drainLoop undef fuel m).1.ctl = (drainBytes undef m.inputBuffer.waiting m).1.ctl ∧
    (drainLoop undef fuel m).1.command =
      (drainBytes undef m.inputBuffer.waiting m).1.command ∧
    (drainLoop undef fuel m).1.inputBuffer.available = false := by
  induction fuel generalizing m with
  | zero =>
    have hc : m.inputBuffer.count = 0 := by omega
    have hw : m.inputBuffer.waiting = [] := by
      unfold Buffer.waiting; rw [hc]; rfl
    rw [hw]
    exact ⟨rfl, rfl, rfl, (Buffer.count_zero_iff _ hb).2 hc⟩
  | succ fuel ih =>
    unfold drainLoop
    by_cases ha : m.inputBuffer.available = true
    · rw [if_pos ha]
      simp only
      have hcnt := Buffer.count_read _ hb ha
      have hwait := Buffer.waiting_read _ hb ha
      obtain ⟨f1, f2, f3, f4⟩ := drainByte_frame undef m.inputBuffer.read.1 m
        { m with inputBuffer := m.inputBuffer.read.2 } rfl rfl
      have hb' : (drainByte undef m.inputBuffer.read.1
          { m with inputBuffer := m.inputBuffer.read.2 }).1.inputBuffer.WellFormed := by
        rw [f4]; exact Buffer.read_wellFormed _ hb
      have hf' : (drainByte undef m.inputBuffer.read.1
          { m with inputBuffer := m.inputBuffer.read.2 }).1.inputBuffer.count ≤ fuel := by
        rw [f4]
        show m.inputBuffer.read.2.count ≤ fuel
        omega
      obtain ⟨i1, i2, i3, i4⟩ := ih _ hb' hf'
      rw [f4] at i1 i2 i3
      obtain ⟨g1, g2, g3⟩ := drainBytes_frame undef m.inputBuffer.read.2.waiting
        (drainByte undef m.inputBuffer.read.1 m).1
        (drainByte undef m.inputBuffer.read.1 { m with inputBuffer := m.inputBuffer.read.2 }).1
        f2 f3
      simp only at i1 i2 i3
      rw [g1] at i1
      rw [g2] at i2
      rw [g3] at i3
      rw [hwait]
      unfold drainBytes
      simp only
      refine ⟨?_, i2, i3, i4⟩
      rw [i1, f1]
    · have ha' : m.inputBuffer.available = false := by simpa using ha
      rw [if_neg ha]
      have hc := (Buffer.count_zero_iff _ hb).1 ha'
      have hw : m.inputBuffer.waiting = [] := by
        unfold Buffer.waiting; rw [hc]; rfl
      rw [hw]
      exact ⟨rfl, rfl, rfl, ha'⟩

theorem assembledLines_bounds (acc bytes : List Char) :
    ∀ l ∈ assembledLines acc bytes, l ≠ [] ∧ l.length ≤ 63 := by
  intro l hl
  unfold assembledLines at hl
  rw [List.mem_filter, List.mem_map] at hl
  obtain ⟨⟨run, _, rfl⟩, hne⟩ := hl
  exact ⟨by simpa using hne, trimmedLine_length run⟩

theorem drainByte_length (undef : Nat) (c : Char) (n : Machine) (h : n.commandLength ≤ 63) :
    (drainByte undef c n).1.commandLength ≤ 63 ∧
    ((drainByte undef c n).2.2 ≠ [] →
      (drainByte undef c n).2.2 = [n.command] ∧ (drainByte undef c n).1.commandLength = 0) := by
  unfold Machine.commandLength at h ⊢
  unfold drainByte
  split_ifs with h1 h2 h3
  · exact ⟨h, fun hne => absurd rfl hne⟩
  · exact ⟨Nat.zero_le _, fun _ => ⟨rfl, rfl⟩⟩
  · refine ⟨?_, fun hne => absurd rfl hne⟩
    simp only [List.length_append, List.length_singleton]
    omega
  · exact ⟨h, fun hne => absurd rfl hne⟩

/-- C19: let the line in progress be the trimmed run `acc` (empty after `setup()` and after
every parse). For every sequence of bytes drained, the lines handed to the parser are, in
order, the runs between consecutive terminators (`\n`, `\r`, `;`), each with its leading
spaces removed, interior and trailing spaces kept, and truncated to its first 63 characters,
the runs that are empty after that being left out; every such line has between 1 and 63
characters; the line left in progress is the trimmed open run, so `commandLength` is at most
63 and the write `command[commandLength] = 0` stays inside the 64-byte buffer; each pass of
the loop body keeps `commandLength <= 63` and leaves it at 0 when it has handed a line to the
parser. The `while` loop of the source over the ring buffer hands over exactly these lines for
the bytes waiting in the ring, and 256 passes empty the ring. -/
theorem line_assembly_matches_spec (undef : Nat) (bytes : List Char) (m : Machine)
    (acc : List Char) (hacc : m.command = trimmedLine acc) :
    (drainBytes undef bytes m).2.2 = assembledLines acc bytes ∧
    (∀ l ∈ (drainBytes undef bytes m).2.2, l ≠ [] ∧ l.length ≤ 63) ∧
    (drainBytes undef bytes m).1.command = trimmedLine (openRun acc bytes) ∧
    (drainBytes undef bytes m).1.commandLength ≤ 63 ∧
    (∀ (c : Char) (n : Machine), n.commandLength ≤ 63 →
      (drainByte undef c n).1.commandLength ≤ 63 ∧
      ((drainByte undef c n).2.2 ≠ [] →
        (drainByte undef c n).2.2 = [n.command] ∧
        (drainByte undef c n).1.commandLength = 0)) ∧
    (m.inputBuffer.WellFormed → m.inputBuffer.waiting = bytes →
      (drainLoop undef 256 m).2.2 = assembledLines acc bytes ∧
      (drainLoop undef 256 m).1.command = trimmedLine (openRun acc bytes) ∧
      (drainLoop undef 256 m).1.inputBuffer.available = false) := by
  obtain ⟨h1, h2⟩ := drainBytes_spec undef bytes m acc hacc
  refine ⟨h1, ?_, h2, ?_, drainByte_length undef, ?_⟩
  · rw [h1]; exact assembledLines_bounds acc bytes
  · unfold Machine.commandLength
    rw [h2]; exact trimmedLine_length _
  · intro hb hw
    have hcount : m.inputBuffer.count ≤ 256 := by
      unfold Buffer.count
      exact Nat.le_of_lt (Nat.mod_lt _ (by decide))
    obtain ⟨l1, _, l3, l4⟩ := drainLoop_eq_drainBytes undef 256 m hb hcount
    rw [hw] at l1 l3
    refine ⟨?_, ?_, l4⟩
    · rw [l1, h1]
    · rw [l3, h2]

/-- Witness for C19: the bytes of two lines with leading, interior and trailing spaces, empty
runs between them and an unfinished third line. -/
theorem line_assembly_matches_spec_witness :
    Machine.init.command = trimmedLine [] ∧
    (drainBytes 0 [' ', ' ', 'l', ' ', ' ', '5', ' ', ';', ';', ' ', ';', ' ', 'r', ' ', '9',
      Char.ofNat 10, 'x'] Machine.init).2.2 =
      [['l', ' ', ' ', '5', ' '], ['r', ' ', '9']] ∧
    (drainBytes 0 [' ', ' ', 'l', ' ', ' ', '5', ' ', ';', ';', ' ', ';', ' ', 'r', ' ', '9',
      Char.ofNat 10, 'x'] Machine.init).1.command = ['x'] :=
  have h := line_assembly_matches_spec 0 [' ', ' ', 'l', ' ', ' ', '5', ' ', ';', ';', ' ', ';',
    ' ', 'r', ' ', '9', Char.ofNat 10, 'x'] Machine.init [] (by decide)
  ⟨by decide, h.1.trans (by decide), h.2.2.1.trans (by decide)⟩

end Stucco
